import Mathlib

/-!
Verification of the task reconciliation and scheduling subsystem of the
Chat-Bot repository (src/mcp-server/server.py).

The embedding models the local SQLite task store as a list of task records
in rowid order, the Todoist HTTP fetch as an abstract `FetchResult`, and the
reconciliation function `sync_with_todoist` (server.py lines 207-326), the
`complete_task` tool (lines 114-127 and 770-777), and the
`PeriodicSyncScheduler` net-new detection (lines 472-605) as pure functions.

Python strings are modelled as `List Char`.  The SQLite `LIKE` operator of
the tag lookup (server.py line 266) is modelled by `likeMatch` below with
SQLite's semantics: `%` matches any sequence, `_` any single character,
and ordinary characters compare ASCII case-insensitively (SQLite's default
`LIKE` folds `A`-`Z` to `a`-`z` and nothing else).  Python's
`s.split(sep)[1].split("]")[0]` tag extraction is modelled by the
`dropThru` / `upTo` combinators below, faithful to the semantics of
`str.split` (the `[1]` piece is the text between the first and second
occurrence of the separator, truncated at the first `]`).  The deletion
sweep's SQL preselection `LIKE "%[TODOIST-%"` is implied by the Python
re-check `"[TODOIST-" in desc` that follows it (lemma
`sweep_like_subsumed`), so the sweep is modelled by that case-sensitive
containment check alone.
-/

namespace Server

abbrev Str := List Char

/-- `begMatch n s` is true when `n` is a leading segment of `s`
(the anchor test used to locate substring occurrences). -/
def begMatch : Str → Str → Bool
  | [], _ => true
  | _ :: _, [] => false
  | a :: as, b :: bs => a == b && begMatch as bs

/-- `hasSub n s` is true when `n` occurs contiguously inside `s`:
the model of Python's `n in s` and of SQLite `s LIKE '%n%'`. -/
def hasSub (needle : Str) : Str → Bool
  | [] => needle.isEmpty
  | c :: rest => begMatch needle (c :: rest) || hasSub needle rest

/-- The part of `s` strictly before the first occurrence of `pat`
(all of `s` when `pat` does not occur): Python `s.split(pat)[0]`. -/
def upTo (pat : Str) : Str → Str
  | [] => []
  | c :: rest => if begMatch pat (c :: rest) then [] else c :: upTo pat rest

/-- The part of `s` after the first occurrence of `pat`, or `none` when
`pat` does not occur in `s`. -/
def dropThru (pat : Str) : Str → Option Str
  | [] => if pat.isEmpty then some [] else none
  | c :: rest =>
      if begMatch pat (c :: rest) then some (List.drop pat.length (c :: rest))
      else dropThru pat rest

/-- The ASCII upper/lower case pairs folded by SQLite's default `LIKE`. -/
def upLow : List (Char × Char) :=
  [('A', 'a'), ('B', 'b'), ('C', 'c'), ('D', 'd'), ('E', 'e'), ('F', 'f'), ('G', 'g'),
   ('H', 'h'), ('I', 'i'), ('J', 'j'), ('K', 'k'), ('L', 'l'), ('M', 'm'), ('N', 'n'),
   ('O', 'o'), ('P', 'p'), ('Q', 'q'), ('R', 'r'), ('S', 's'), ('T', 't'), ('U', 'u'),
   ('V', 'v'), ('W', 'w'), ('X', 'x'), ('Y', 'y'), ('Z', 'z')]

/-- SQLite's `LIKE` case folding: ASCII uppercase letters map to their
lowercase pair, every other character is left alone. -/
def foldChar (c : Char) : Char :=
  match upLow.find? (fun p => p.1 == c) with
  | some p => p.2
  | none => c

/-- One-character comparison under `LIKE`: case-insensitive for ASCII. -/
def likeC (p c : Char) : Bool := foldChar p == foldChar c

/-- SQLite `LIKE` pattern matching: `%` matches any (possibly empty)
sequence, `_` matches exactly one character, and any other pattern
character matches one text character case-insensitively. -/
def likeMatch : Str → Str → Bool
  | [], t => t.isEmpty
  | p :: ps, t =>
      if p = '%' then
        (List.range (t.length + 1)).any (fun k => likeMatch ps (t.drop k))
      else
        match t with
        | [] => false
        | c :: ts => if p = '_' then likeMatch ps ts else likeC p c && likeMatch ps ts

/-- Case-folded leading-segment test (the anchored form of `LIKE`
matching for wildcard-free needles). -/
def begFold : Str → Str → Bool
  | [], _ => true
  | _ :: _, [] => false
  | a :: as, b :: bs => likeC a b && begFold as bs

/-- Case-folded substring occurrence: what `LIKE '%needle%'` computes for
a wildcard-free needle. -/
def hasFold (needle : Str) : Str → Bool
  | [] => needle.isEmpty
  | c :: rest => begFold needle (c :: rest) || hasFold needle rest

/-- A needle contains no `LIKE` wildcard. -/
def noWild (n : Str) : Bool := !(n.contains '%') && !(n.contains '_')

/-- The external reference tag opener `[TODOIST-` (server.py line 284). -/
def tagMark : Str := ['[', 'T', 'O', 'D', 'O', 'I', 'S', 'T', '-']

/-- The closing bracket of the tag. -/
def rbrS : Str := [']']

/-- The full tag `[TODOIST-<rid>]`, the payload of the LIKE pattern
`%[TODOIST-{task_id}]%` of server.py line 267. -/
def tagNeedle (rid : Str) : Str := tagMark ++ rid ++ rbrS

/-- The LIKE pattern `f"%[TODOIST-{task_id}]%"` of server.py line 267,
with the remote id interpolated verbatim (so `%` or `_` inside the id act
as wildcards, exactly as in the SQL). -/
def findPattern (rid : Str) : Str := '%' :: (tagNeedle rid ++ ['%'])

/-- The text Python's `desc.split("[TODOIST-")[1]` would start from:
everything after the first `[TODOIST-`. -/
def afterMark (d : Str) : Str := (dropThru tagMark d).getD []

/-- The id the deletion sweep extracts from a tagged description
(server.py line 303: `desc.split("[TODOIST-")[1].split("]")[0]`). -/
def extractTid (d : Str) : Str := upTo rbrS (upTo tagMark (afterMark d))

def pendingS : Str := "pending".toList
def completedS : Str := "completed".toList

/-- One task of the remote Todoist snapshot, the fields server.py reads
from each element of the JSON array (lines 258-262). -/
structure RemoteTask where
  rid : Str
  content : Str
  rdescription : Str
  is_completed : Bool
  rcreated_at : Str
deriving DecidableEq, Repr

/-- One row of the local `tasks` table, in the columns the reconciler
touches (the unused `user_token` column is omitted). -/
structure Task where
  id : Nat
  title : Str
  description : Str
  created_at : Str
  completed_at : Option Str
  status : Str
deriving DecidableEq, Repr

/-- The local store: rows in rowid order plus the AUTOINCREMENT counter. -/
structure Store where
  tasks : List Task
  nextId : Nat
deriving DecidableEq, Repr

/-- Outcome of the Todoist fetch: any transport error, missing `requests`
module, or non-200 status is a single failure case, since server.py
handles them all by returning 0 before touching the store. -/
inductive FetchResult where
  | failure : FetchResult
  | success : List RemoteTask → FetchResult
deriving DecidableEq, Repr

/-- What one call of `sync_with_todoist` produces: the new store, the three
internal counters, and the value the Python function actually returns. -/
structure SyncOutcome where
  store : Store
  imported : Nat
  updated : Nat
  deleted : Nat
  ret : Nat
deriving DecidableEq, Repr

/-- `task_status = "completed" if is_completed else "pending"`
(server.py lines 273 and 285). -/
def statusOf (r : RemoteTask) : Str := if r.is_completed then completedS else pendingS

/-- `SELECT id, status FROM tasks WHERE description LIKE ?` with pattern
`%[TODOIST-{task_id}]%`, then `fetchone()`: the first row in rowid order
whose description matches the pattern under SQLite `LIKE` semantics
(ASCII case-insensitive, wildcards honoured; server.py lines 265-269). -/
def findTag (rid : Str) (st : Store) : Option Task :=
  st.tasks.find? (fun t => likeMatch (findPattern rid) t.description)

/-- `f"[TODOIST-{task_id}] {description}" if description else
f"[TODOIST-{task_id}]"` (server.py line 284). -/
def fullDescription (r : RemoteTask) : Str :=
  if r.rdescription.isEmpty then tagNeedle r.rid
  else tagNeedle r.rid ++ (' ' :: r.rdescription)

/-- The row built for an imported remote task: the columns of the INSERT
of server.py lines 287-290, with a fresh rowid, `created_at or now`, and
`completed_at` left NULL. -/
def importedTask (now : Str) (st : Store) (r : RemoteTask) : Task :=
  { id := st.nextId
    title := r.content
    description := fullDescription r
    created_at := if r.rcreated_at.isEmpty then now else r.rcreated_at
    completed_at := none
    status := statusOf r }

/-- `INSERT INTO tasks (title, description, created_at, status)` for a
remote task (server.py lines 287-290). -/
def insertRemote (now : Str) (st : Store) (r : RemoteTask) : Store :=
  { tasks := st.tasks ++ [importedTask now st r]
    nextId := st.nextId + 1 }

/-- The row-level effect of `UPDATE tasks SET status = ? WHERE id = ?`:
only the status column of the row with the matching id is written. -/
def updStatus (i : Nat) (s : Str) (t : Task) : Task :=
  if t.id = i then { t with status := s } else t

/-- `UPDATE tasks SET status = ? WHERE id = ?` (server.py lines 275-278). -/
def setStatus (i : Nat) (s : Str) (st : Store) : Store :=
  { st with tasks := st.tasks.map (updStatus i s) }

/-- One iteration of the import/update loop of server.py lines 257-293,
acting on `(store, imported, updated)`. -/
def step1 (now : Str) (acc : Store × Nat × Nat) (r : RemoteTask) : Store × Nat × Nat :=
  match findTag r.rid acc.1 with
  | some existing =>
      if existing.status ≠ statusOf r then
        (setStatus existing.id (statusOf r) acc.1, acc.2.1, acc.2.2 + 1)
      else acc
  | none => (insertRemote now acc.1 r, acc.2.1 + 1, acc.2.2)

/-- The set of remote ids (`todoist_task_ids`, server.py lines 249-251). -/
def ridsOf (ts : List RemoteTask) : List Str := ts.map RemoteTask.rid

/-- The deletion sweep's verdict on one description (server.py lines
296-308): the row is selected by `LIKE "%[TODOIST-%"` and re-checked in
Python by the case-sensitive `"[TODOIST-" in desc` (line 302) — the SQL
preselection is implied by the Python check (`sweep_like_subsumed`), so
their conjunction is the Python check alone — then its id is extracted by
the split pair and the row deleted when that id is absent from the
snapshot's id set. -/
def doomed (ids : List Str) (d : Str) : Bool :=
  hasSub tagMark d && !(ids.contains (extractTid d))

/-- The body of `sync_with_todoist` after a successful fetch (server.py
lines 243-319): the import/update loop over the snapshot, then the
deletion sweep over the rows carrying `[TODOIST-`, then the counters. -/
def syncSuccess (now : Str) (tasks_data : List RemoteTask) (st : Store) : SyncOutcome :=
  let ids := ridsOf tasks_data
  let p1 := tasks_data.foldl (step1 now) (st, 0, 0)
  let deleted := (p1.1.tasks.filter (fun t => doomed ids t.description)).length
  let st2 : Store := { p1.1 with tasks := p1.1.tasks.filter (fun t => !doomed ids t.description) }
  ⟨st2, p1.2.1, p1.2.2, deleted, p1.2.1 + p1.2.2 + deleted⟩

/-- `sync_with_todoist()` (server.py lines 207-326) as a function of the
credential, the fetch outcome, the current wall-clock string and the store.
A missing token or a failed fetch returns before any store access; a
successful fetch runs the import/update loop then the deletion sweep and
returns `imported + updated + deleted` (line 319). -/
def sync_with_todoist (token now : Str) (fetch : FetchResult) (st : Store) : SyncOutcome :=
  if token.isEmpty then ⟨st, 0, 0, 0, 0⟩ else
  match fetch with
  | FetchResult.failure => ⟨st, 0, 0, 0, 0⟩
  | FetchResult.success tasks_data => syncSuccess now tasks_data st

theorem sync_success_eq {token : Str} (now : Str) (ts : List RemoteTask) (st : Store)
    (htok : token ≠ []) :
    sync_with_todoist token now (FetchResult.success ts) st = syncSuccess now ts st := by
  cases token with
  | nil => exact absurd rfl htok
  | cons c cs => rfl

/-- `complete_task(task_id)` (server.py lines 114-127):
`UPDATE tasks SET status = 'completed', completed_at = ? WHERE id = ?`.
When no row has that id the UPDATE silently affects zero rows. -/
def complete_task (now : Str) (task_id : Nat) (st : Store) : Store :=
  { st with tasks := st.tasks.map (fun t =>
      if t.id = task_id then { t with status := completedS, completed_at := some now } else t) }

/-- The `complete_task` branch of `handle_tool_call` (server.py lines
770-777): a falsy `task_id` (missing, or the integer 0) yields an error
reply; any other id runs the UPDATE and reports success.  The Bool result
is the reply's `isError` flag. -/
def handle_complete_call (now : Str) (arg : Option Nat) (st : Store) : Store × Bool :=
  match arg with
  | none => (st, true)
  | some task_id =>
      if task_id = 0 then (st, true)
      else (complete_task now task_id st, false)

/-- `PeriodicSyncScheduler._load_existing_tasks` (server.py lines 472-490):
seed the known-id set with the id extracted from every description that
contains `[TODOIST-`.  The set is modelled as a duplicate-free list. -/
def load_existing_tasks (st : Store) : List Str :=
  st.tasks.foldl (fun k t =>
    if hasSub tagMark t.description && !(k.contains (extractTid t.description))
    then k ++ [extractTid t.description] else k) []

/-- `PeriodicSyncScheduler._import_new_tasks` (server.py lines 577-605):
insert each task with the same tag/created_at/status logic as the
reconciler's import branch.  The whole body is wrapped in
`try ... except`, and an exception strikes before `conn.commit()`, so a
failed call leaves the store unchanged: `ok` is the success of that
transaction. -/
def import_new_tasks (now : Str) (ok : Bool) (ts : List RemoteTask) (st : Store) : Store :=
  if ok then ts.foldl (insertRemote now) st else st

/-- Result of one firing of `PeriodicSyncScheduler._check_for_new_tasks`:
the grown known-id set, the net-new tasks selected (one push notification
is emitted per element), and the store after the import. -/
structure CheckOutcome where
  known : List Str
  newTasks : List RemoteTask
  store : Store
deriving DecidableEq, Repr

/-- One iteration of the new-task detection loop (server.py lines 548-552):
an id not yet known is added to the known set and its task collected. -/
def selStep (acc : List Str × List RemoteTask) (t : RemoteTask) : List Str × List RemoteTask :=
  if acc.1.contains t.rid then acc else (acc.1 ++ [t.rid], acc.2 ++ [t])

/-- `PeriodicSyncScheduler._check_for_new_tasks` (server.py lines 514-575):
on a missing token or a failed fetch nothing changes; otherwise every
fetched id absent from `known_task_ids` is appended to the set and
collected, the collected tasks are imported (when any), and one
notification per collected task is sent. -/
def check_for_new_tasks (token now : Str) (ok : Bool) (fetch : FetchResult)
    (known : List Str) (st : Store) : CheckOutcome :=
  if token.isEmpty then ⟨known, [], st⟩ else
  match fetch with
  | FetchResult.failure => ⟨known, [], st⟩
  | FetchResult.success tasks_data =>
      let sel := tasks_data.foldl selStep (known, [])
      let st' := if sel.2.isEmpty then st else import_new_tasks now ok sel.2 st
      ⟨sel.1, sel.2, st'⟩

/-- A sequence of later interval-scheduler firings, each with its own fetch
outcome and import success; collects every net-new task any of them
selected (and hence notified about). -/
def runChecks (token now : Str) : List (FetchResult × Bool) → List Str → Store →
    (List Str × Store) × List RemoteTask
  | [], known, st => ((known, st), [])
  | (f, ok) :: rest, known, st =>
      let o := check_for_new_tasks token now ok f known st
      let later := runChecks token now rest o.known o.store
      (later.1, o.newTasks ++ later.2)

/-! ### Correctness predicates -/

/-- A remote id is clean when it contains neither bracket character, so the
tag `[TODOIST-<id>]` it generates can be parsed back unambiguously. -/
def cleanId (i : Str) : Bool := !(i.contains '[') && !(i.contains ']')

/-- A remote task is clean when its id is clean and its description does
not itself introduce a `[` that could be mistaken for a tag opener. -/
def cleanRemote (r : RemoteTask) : Bool :=
  cleanId r.rid && !(r.rdescription.contains '[')

/-- A snapshot is clean when its ids are pairwise distinct and every task
in it is clean. -/
def CleanSnap (ts : List RemoteTask) : Prop :=
  (ridsOf ts).Nodup ∧ ∀ r ∈ ts, cleanRemote r = true

instance : DecidablePred CleanSnap := fun _ => by
  unfold CleanSnap; infer_instance

/-- A local row is well-tagged when its description either contains no
`[TODOIST-` at all, or starts with a single canonical tag
`[TODOIST-<id>]` with a clean id followed by `[`-free text.  (Enough for
the tag-uniqueness preservation of claim C4, which only needs that a row
carrying a tag matches its own lookup pattern.) -/
def WFTask (t : Task) : Prop :=
  hasSub tagMark t.description = false ∨
  ∃ i rest, t.description = tagNeedle i ++ rest ∧ cleanId i = true ∧ '[' ∉ rest

def WFStore (st : Store) : Prop := ∀ t ∈ st.tasks, WFTask t

/-- An id character that the `LIKE` lookup treats literally and rigidly:
not an ASCII letter (so case folding cannot alias it), not a `LIKE`
wildcard, and not a tag bracket.  Numeric Todoist ids satisfy this. -/
def okChar (c : Char) : Bool :=
  !("ABCDEFGHIJKLMNOPQRSTUVWXYZ".toList.contains c) &&
  !("abcdefghijklmnopqrstuvwxyz".toList.contains c) &&
  !(c == '[') && !(c == ']') && !(c == '%') && !(c == '_')

/-- A remote id whose interpolation into the `LIKE` pattern is injective:
every character is rigid under case folding and wildcard-free. -/
def okId (i : Str) : Bool := i.all okChar

/-- A remote task whose id is rigid and whose description introduces no
`[` that could be mistaken for a tag opener. -/
def okRemote (r : RemoteTask) : Bool := okId r.rid && !(r.rdescription.contains '[')

/-- A snapshot with pairwise-distinct rigid ids and `[`-free descriptions:
on these the case-insensitive lookup coincides with exact tag equality. -/
def OkSnap (ts : List RemoteTask) : Prop :=
  (ridsOf ts).Nodup ∧ ∀ r ∈ ts, okRemote r = true

instance : DecidablePred OkSnap := fun _ => by
  unfold OkSnap; infer_instance

/-- The strengthening of `WFTask` needed for lookup injectivity: rows are
either free of the tag opener even up to case folding, or canonically
tagged with a rigid id. -/
def OkTask (t : Task) : Prop :=
  hasFold tagMark t.description = false ∨
  ∃ i rest, t.description = tagNeedle i ++ rest ∧ okId i = true ∧ '[' ∉ rest

def OkStore (st : Store) : Prop := ∀ t ∈ st.tasks, OkTask t

/-- Row ids are pairwise distinct and below the AUTOINCREMENT counter. -/
def UIds (st : Store) : Prop :=
  (st.tasks.map Task.id).Nodup ∧ ∀ t ∈ st.tasks, t.id < st.nextId

/-- The external id a row carries, through the code's own extraction. -/
def tagOf (t : Task) : Option Str :=
  if hasSub tagMark t.description then some (extractTid t.description) else none

/-- The invariant of claim C4: at most one row carries any given tag. -/
def AtMostOneTag (st : Store) : Prop :=
  ∀ t1 ∈ st.tasks, ∀ t2 ∈ st.tasks, tagOf t1 ≠ none → tagOf t1 = tagOf t2 → t1.id = t2.id

instance : DecidablePred AtMostOneTag := fun _ => by
  unfold AtMostOneTag; infer_instance

/-- The tag lookup for `rid` succeeds and the row found has status `s`. -/
def goodFor (rid s : Str) (st : Store) : Prop :=
  ∃ t, findTag rid st = some t ∧ t.status = s

/-! ### Substring occurrence lemmas -/

theorem begMatch_append_self (n s : Str) : begMatch n (n ++ s) = true := by
  induction n with
  | nil => rfl
  | cons a as ih => simp [begMatch, ih]

theorem begMatch_mem {n s : Str} (h : begMatch n s = true) : ∀ c ∈ n, c ∈ s := by
  induction n generalizing s with
  | nil => intro c hc; cases hc
  | cons a as ih =>
    cases s with
    | nil => simp [begMatch] at h
    | cons b bs =>
      simp only [begMatch, Bool.and_eq_true, beq_iff_eq] at h
      intro c hc
      rcases List.mem_cons.mp hc with rfl | hc
      · exact h.1 ▸ List.mem_cons_self _ _
      · exact List.mem_cons_of_mem _ (ih h.2 c hc)

theorem hasSub_of_begMatch {n s : Str} (h : begMatch n s = true) : hasSub n s = true := by
  cases s with
  | nil => cases n with
    | nil => rfl
    | cons a as => simp [begMatch] at h
  | cons c r => simp [hasSub, h]

theorem hasSub_mem {n s : Str} (h : hasSub n s = true) : ∀ c ∈ n, c ∈ s := by
  induction s with
  | nil =>
    cases n with
    | nil => intro c hc; cases hc
    | cons a as => simp [hasSub, List.isEmpty] at h
  | cons b bs ih =>
    simp only [hasSub, Bool.or_eq_true] at h
    rcases h with h | h
    · exact begMatch_mem h
    · exact fun c hc => List.mem_cons_of_mem _ (ih h c hc)

theorem begMatch_of_append {a b s : Str} (h : begMatch (a ++ b) s = true) :
    begMatch a s = true := by
  induction a generalizing s with
  | nil => rfl
  | cons x xs ih =>
    cases s with
    | nil => simp [begMatch] at h
    | cons y ys =>
      simp only [List.cons_append, begMatch, Bool.and_eq_true] at h ⊢
      exact ⟨h.1, ih h.2⟩

theorem hasSub_of_append {a b s : Str} (h : hasSub (a ++ b) s = true) :
    hasSub a s = true := by
  induction s with
  | nil =>
    simp only [hasSub, List.isEmpty_eq_true, List.append_eq_nil] at h ⊢
    exact h.1
  | cons c r ih =>
    simp only [hasSub, Bool.or_eq_true] at h ⊢
    rcases h with h | h
    · exact Or.inl (begMatch_of_append h)
    · exact Or.inr (ih h)

theorem begMatch_append_cancel (l a b : Str) :
    begMatch (l ++ a) (l ++ b) = begMatch a b := by
  induction l with
  | nil => rfl
  | cons x xs ih => simp [begMatch, ih]

theorem hasSub_head_not_mem {c : Char} {n s : Str} (hc : c ∉ s) :
    hasSub (c :: n) s = false := by
  induction s with
  | nil => rfl
  | cons b bs ih =>
    have hcb : (c == b) = false := by
      refine beq_eq_false_iff_ne.mpr ?_
      intro e; exact hc (e ▸ List.mem_cons_self _ _)
    have hbs : c ∉ bs := fun h => hc (List.mem_cons_of_mem _ h)
    simp [hasSub, begMatch, hcb, ih hbs]

theorem bracket_inj : ∀ {j i : Str} {r : Str}, ']' ∉ i → ']' ∉ j →
    begMatch (j ++ [']']) (i ++ ']' :: r) = true → j = i := by
  intro j
  induction j with
  | nil =>
    intro i r hi _ h
    cases i with
    | nil => rfl
    | cons a as =>
      simp only [List.nil_append, List.cons_append, begMatch, Bool.and_eq_true,
        beq_iff_eq] at h
      exact absurd (h.1 ▸ List.mem_cons_self a as : ']' ∈ a :: as) hi
  | cons b bs ih =>
    intro i r hi hj h
    cases i with
    | nil =>
      simp only [List.cons_append, List.nil_append, begMatch, Bool.and_eq_true,
        beq_iff_eq] at h
      exact absurd (h.1 ▸ List.mem_cons_self b bs : ']' ∈ b :: bs) hj
    | cons a as =>
      simp only [List.cons_append, begMatch, Bool.and_eq_true, beq_iff_eq] at h
      have hi' : ']' ∉ as := fun m => hi (List.mem_cons_of_mem _ m)
      have hj' : ']' ∉ bs := fun m => hj (List.mem_cons_of_mem _ m)
      rw [h.1, ih hi' hj' h.2]

theorem contains_false {α : Type} [BEq α] [LawfulBEq α] {l : List α} {c : α}
    (h : l.contains c = false) : c ∉ l := by
  intro m; simp [List.elem_iff] at h; exact h m

theorem contains_of_mem {α : Type} [BEq α] [LawfulBEq α] {l : List α} {c : α}
    (m : c ∈ l) : l.contains c = true := by
  simp [List.elem_iff]; exact m

theorem mem_of_contains {α : Type} [BEq α] [LawfulBEq α] {l : List α} {c : α}
    (h : l.contains c = true) : c ∈ l := by
  simpa [List.elem_iff] using h

theorem contains_eq_false_of_not_mem {α : Type} [BEq α] [LawfulBEq α] {l : List α} {c : α}
    (h : c ∉ l) : l.contains c = false := by
  cases hc : l.contains c with
  | false => rfl
  | true => exact absurd (mem_of_contains hc) h

theorem cleanId_spec {i : Str} (h : cleanId i = true) : '[' ∉ i ∧ ']' ∉ i := by
  simp only [cleanId, Bool.and_eq_true, Bool.not_eq_true'] at h
  exact ⟨contains_false h.1, contains_false h.2⟩

/-- The tag opener split into its head bracket and letter tail. -/
def tailMark : Str := ['T', 'O', 'D', 'O', 'I', 'S', 'T', '-']

theorem tagMark_eq : tagMark = '[' :: tailMark := rfl

theorem hasSub_cons_eq (n : Str) (c : Char) (s : Str) :
    hasSub n (c :: s) = (begMatch n (c :: s) || hasSub n s) := rfl

theorem canon_split (i rest : Str) :
    tagNeedle i ++ rest = '[' :: (tailMark ++ (i ++ ']' :: rest)) := by
  simp [tagNeedle, rbrS, tagMark_eq, List.append_assoc]

theorem canon_split' (i rest : Str) :
    tagNeedle i ++ rest = tagMark ++ (i ++ ']' :: rest) := by
  simp [tagNeedle, rbrS, List.append_assoc]

theorem no_bracket_tail {i rest : Str} (hi : '[' ∉ i) (hrest : '[' ∉ rest) :
    '[' ∉ tailMark ++ (i ++ ']' :: rest) := by
  intro m
  rcases List.mem_append.mp m with m | m
  · simp [tailMark] at m
  · rcases List.mem_append.mp m with m | m
    · exact hi m
    · rcases List.mem_cons.mp m with e | m
      · exact absurd e (by decide)
      · exact hrest m

/-- Matching the pattern `%[TODOIST-<j>]%` against a canonically tagged
description `[TODOIST-<i>]<rest>` succeeds exactly when `j = i`: the
occurrence is forced to start at the opening bracket. -/
theorem hasSub_needle_canon {i j rest : Str}
    (hci : cleanId i = true) (hcj : cleanId j = true) (hrest : '[' ∉ rest) :
    (hasSub (tagNeedle j) (tagNeedle i ++ rest) = true) ↔ j = i := by
  obtain ⟨hi1, hi2⟩ := cleanId_spec hci
  obtain ⟨hj1, hj2⟩ := cleanId_spec hcj
  constructor
  · intro h
    rw [canon_split, hasSub_cons_eq] at h
    rcases Bool.or_eq_true _ _ |>.mp h with h | h
    · have h' : begMatch (tagMark ++ (j ++ [']'])) (tagMark ++ (i ++ ']' :: rest)) = true := by
        have e1 : tagMark ++ (j ++ [']']) = tagNeedle j := (canon_split' j []).symm ▸ by
          simp [tagNeedle, rbrS, List.append_assoc]
        rw [e1, tagMark_eq]
        simpa using h
      rw [begMatch_append_cancel] at h'
      exact bracket_inj hi2 hj2 h'
    · have hne : tagNeedle j = '[' :: (tailMark ++ (j ++ [']'])) := by
        have := canon_split j []
        simpa using this
      rw [hne, hasSub_head_not_mem (no_bracket_tail hi1 hrest)] at h
      exact Bool.noConfusion h
  · rintro rfl
    exact hasSub_of_begMatch (begMatch_append_self (tagNeedle j) rest)

theorem hasSub_tagMark_canon (i rest : Str) :
    hasSub tagMark (tagNeedle i ++ rest) = true := by
  apply hasSub_of_begMatch
  rw [canon_split']
  exact begMatch_append_self tagMark _

theorem dropThru_self {p : Str} (s : Str) (hp : p ≠ []) : dropThru p (p ++ s) = some s := by
  cases p with
  | nil => exact absurd rfl hp
  | cons c p' =>
    show dropThru (c :: p') (c :: (p' ++ s)) = some s
    have hb : begMatch (c :: p') (c :: (p' ++ s)) = true := begMatch_append_self (c :: p') s
    rw [dropThru, if_pos hb]
    congr 1
    exact List.drop_left (c :: p') s

theorem upTo_not_head {c : Char} {p' : Str} : ∀ {s : Str}, c ∉ s → upTo (c :: p') s = s := by
  intro s
  induction s with
  | nil => intro _; rfl
  | cons b bs ih =>
    intro h
    have hcb : (c == b) = false := by
      refine beq_eq_false_iff_ne.mpr ?_
      intro e; exact h (e ▸ List.mem_cons_self _ _)
    rw [upTo, if_neg (by simp [begMatch, hcb]), ih (fun m => h (List.mem_cons_of_mem _ m))]

theorem upTo_brk {i : Str} (r : Str) (hi : ']' ∉ i) : upTo rbrS (i ++ ']' :: r) = i := by
  induction i with
  | nil =>
    show upTo rbrS (']' :: r) = []
    rw [upTo, if_pos (by simp [rbrS, begMatch])]
  | cons a as ih =>
    have ha : (']' == a) = false := by
      refine beq_eq_false_iff_ne.mpr ?_
      intro e; exact hi (e ▸ List.mem_cons_self _ _)
    show upTo rbrS (a :: (as ++ ']' :: r)) = a :: as
    rw [upTo, if_neg (by simp [rbrS, begMatch, ha]),
      ih (fun m => hi (List.mem_cons_of_mem _ m))]

/-- The deletion sweep's extraction recovers the id of a canonical tag. -/
theorem extractTid_canon {i rest : Str} (hci : cleanId i = true) (hrest : '[' ∉ rest) :
    extractTid (tagNeedle i ++ rest) = i := by
  obtain ⟨hi1, hi2⟩ := cleanId_spec hci
  have hnob : '[' ∉ i ++ ']' :: rest := by
    intro m
    rcases List.mem_append.mp m with m | m
    · exact hi1 m
    · rcases List.mem_cons.mp m with e | m
      · exact absurd e (by decide)
      · exact hrest m
  rw [extractTid, afterMark, canon_split', dropThru_self _ (by decide), Option.getD_some,
    show upTo tagMark (i ++ ']' :: rest) = i ++ ']' :: rest from tagMark_eq ▸ upTo_not_head hnob,
    upTo_brk _ hi2]

/-! ### Case folding and rigid characters -/

theorem upLow_snd_low : ∀ p ∈ upLow, p.2 ∈ "abcdefghijklmnopqrstuvwxyz".toList := by decide

theorem upLow_fst_up : ∀ p ∈ upLow, p.1 ∈ "ABCDEFGHIJKLMNOPQRSTUVWXYZ".toList := by decide

/-- A character that is not a lowercase ASCII letter is reached by the
case folding only from itself. -/
theorem fold_fix {b : Char} (hb : b ∉ "abcdefghijklmnopqrstuvwxyz".toList) :
    ∀ {c : Char}, foldChar c = b → c = b := by
  intro c h
  unfold foldChar at h
  cases hf : upLow.find? (fun p => p.1 == c) with
  | none => rw [hf] at h; exact h
  | some p =>
    rw [hf] at h
    have hp : p ∈ upLow := List.mem_of_find?_eq_some hf
    exact absurd (h ▸ upLow_snd_low p hp) hb

theorem foldChar_not_up {c : Char} (hc : c ∉ "ABCDEFGHIJKLMNOPQRSTUVWXYZ".toList) :
    foldChar c = c := by
  unfold foldChar
  cases hf : upLow.find? (fun p => p.1 == c) with
  | none => rfl
  | some p =>
    have hp : p ∈ upLow := List.mem_of_find?_eq_some hf
    have he' := List.find?_some hf
    have he : p.1 = c := by simpa using he'
    exact absurd (he ▸ upLow_fst_up p hp) hc

theorem okChar_spec {c : Char} (h : okChar c = true) :
    c ∉ "ABCDEFGHIJKLMNOPQRSTUVWXYZ".toList ∧ c ∉ "abcdefghijklmnopqrstuvwxyz".toList ∧
    c ≠ '[' ∧ c ≠ ']' ∧ c ≠ '%' ∧ c ≠ '_' := by
  simp only [okChar, Bool.and_eq_true, Bool.not_eq_true'] at h
  obtain ⟨⟨⟨⟨⟨h1, h2⟩, h3⟩, h4⟩, h5⟩, h6⟩ := h
  exact ⟨contains_false h1, contains_false h2, by simpa using h3, by simpa using h4,
    by simpa using h5, by simpa using h6⟩

theorem okChar_fold {c : Char} (h : okChar c = true) : foldChar c = c :=
  foldChar_not_up (okChar_spec h).1

theorem likeC_refl (c : Char) : likeC c c = true := by
  unfold likeC; exact beq_self_eq_true _

/-- Matching against a rigid pattern character is exact. -/
theorem likeC_ok {a b : Char} (ha : okChar a = true) (h : likeC a b = true) : b = a := by
  unfold likeC at h
  rw [beq_iff_eq, okChar_fold ha] at h
  exact fold_fix (okChar_spec ha).2.1 h.symm

theorem likeC_lbrack {b : Char} (h : likeC '[' b = true) : b = '[' := by
  unfold likeC at h
  rw [beq_iff_eq, show foldChar '[' = '[' from by decide] at h
  exact fold_fix (by decide) h.symm

theorem likeC_rbrack {b : Char} (h : likeC ']' b = true) : b = ']' := by
  unfold likeC at h
  rw [beq_iff_eq, show foldChar ']' = ']' from by decide] at h
  exact fold_fix (by decide) h.symm

theorem likeC_rbrack' {b : Char} (h : likeC b ']' = true) : b = ']' := by
  unfold likeC at h
  rw [beq_iff_eq, show foldChar ']' = ']' from by decide] at h
  exact fold_fix (by decide) h

theorem okId_mem {i : Str} (h : okId i = true) : ∀ c ∈ i, okChar c = true :=
  fun c hc => List.all_eq_true.mp h c hc

theorem okId_tail {c : Char} {i : Str} (h : okId (c :: i) = true) : okId i = true := by
  simp only [okId, List.all_eq_true] at h ⊢
  exact fun x hx => h x (List.mem_cons_of_mem _ hx)

/-- Rigid ids are in particular bracket-free (the condition of the exact
extraction lemmas). -/
theorem okId_cleanId {i : Str} (h : okId i = true) : cleanId i = true := by
  simp only [cleanId, Bool.and_eq_true, Bool.not_eq_true']
  constructor
  · exact contains_eq_false_of_not_mem
      (fun m => absurd rfl (okChar_spec (okId_mem h _ m)).2.2.1)
  · exact contains_eq_false_of_not_mem
      (fun m => absurd rfl (okChar_spec (okId_mem h _ m)).2.2.2.1)

/-! ### `LIKE` matching lemmas -/

theorem likeMatch_nil_eq (t : Str) : likeMatch [] t = t.isEmpty := rfl

theorem likeMatch_pct_eq (q t : Str) : likeMatch ('%' :: q) t =
    (List.range (t.length + 1)).any (fun k => likeMatch q (t.drop k)) := rfl

theorem likeMatch_pct_cons (q : Str) (c : Char) (ts : Str) :
    likeMatch ('%' :: q) (c :: ts) = (likeMatch q (c :: ts) || likeMatch ('%' :: q) ts) := by
  rw [likeMatch_pct_eq, likeMatch_pct_eq]
  rw [show (c :: ts).length + 1 = ts.length + 1 + 1 from rfl, List.range_succ_eq_map,
    List.any_cons, List.any_map]
  rfl

theorem likeMatch_pct_nilT (q : Str) : likeMatch ('%' :: q) [] = likeMatch q [] := by
  rw [likeMatch_pct_eq]
  simp [List.range_succ]

/-- A leading `%` matches a text exactly when the rest of the pattern
matches some suffix of it. -/
theorem pct_iff (q : Str) : ∀ (t : Str),
    likeMatch ('%' :: q) t = true ↔ ∃ k, likeMatch q (t.drop k) = true := by
  intro t
  induction t with
  | nil =>
    rw [likeMatch_pct_nilT]
    constructor
    · intro h; exact ⟨0, h⟩
    · rintro ⟨k, hk⟩; simpa using hk
  | cons c ts ih =>
    rw [likeMatch_pct_cons]
    constructor
    · intro h
      rcases Bool.or_eq_true _ _ |>.mp h with h | h
      · exact ⟨0, h⟩
      · rcases ih.mp h with ⟨k, hk⟩
        exact ⟨k + 1, hk⟩
    · rintro ⟨k, hk⟩
      cases k with
      | zero => exact Bool.or_eq_true _ _ |>.mpr (Or.inl hk)
      | succ k' => exact Bool.or_eq_true _ _ |>.mpr (Or.inr (ih.mpr ⟨k', hk⟩))

theorem pct_all (t : Str) : likeMatch ['%'] t = true := by
  rw [pct_iff]
  exact ⟨t.length, by rw [List.drop_length, likeMatch_nil_eq]; rfl⟩

/-- Any pattern followed by `%` matches itself followed by anything. -/
theorem like_self_append : ∀ (n s : Str), likeMatch (n ++ ['%']) (n ++ s) = true := by
  intro n
  induction n with
  | nil => intro s; exact pct_all s
  | cons a n' ih =>
    intro s
    by_cases ha : a = '%'
    · subst ha
      show likeMatch ('%' :: (n' ++ ['%'])) ('%' :: (n' ++ s)) = true
      exact (pct_iff _ _).mpr ⟨1, by simpa using ih s⟩
    · show likeMatch (a :: (n' ++ ['%'])) (a :: (n' ++ s)) = true
      rw [likeMatch, if_neg ha]
      by_cases hu : a = '_'
      · rw [if_pos hu]; exact ih s
      · rw [if_neg hu, likeC_refl, Bool.true_and]; exact ih s

/-- Every literal (non-wildcard) pattern character of a successful match
is case-folded-present in the text. -/
theorem match_mem : ∀ (p t : Str), likeMatch p t = true →
    ∀ a ∈ p, a ≠ '%' → a ≠ '_' → ∃ c ∈ t, likeC a c = true
  | [], _, _, a, ha, _, _ => absurd ha (List.not_mem_nil a)
  | p :: ps, [], h, a, ha, hpc, hus => by
    by_cases hp : p = '%'
    · subst hp
      rw [likeMatch_pct_nilT] at h
      rcases List.mem_cons.mp ha with e | ha'
      · exact absurd e hpc
      · exact match_mem ps [] h a ha' hpc hus
    · rw [likeMatch, if_neg hp] at h
      exact Bool.noConfusion h
  | p :: ps, c :: ts, h, a, ha, hpc, hus => by
    by_cases hp : p = '%'
    · subst hp
      rw [likeMatch_pct_cons] at h
      rcases Bool.or_eq_true _ _ |>.mp h with h | h
      · rcases List.mem_cons.mp ha with e | ha'
        · exact absurd e hpc
        · exact match_mem ps (c :: ts) h a ha' hpc hus
      · rcases match_mem ('%' :: ps) ts h a ha hpc hus with ⟨c', hc', hl⟩
        exact ⟨c', List.mem_cons_of_mem _ hc', hl⟩
    · rw [likeMatch, if_neg hp] at h
      by_cases hu : p = '_'
      · rw [if_pos hu] at h
        rcases List.mem_cons.mp ha with e | ha'
        · exact absurd (e.trans hu) hus
        · rcases match_mem ps ts h a ha' hpc hus with ⟨c', hc', hl⟩
          exact ⟨c', List.mem_cons_of_mem _ hc', hl⟩
      · rw [if_neg hu] at h
        rcases Bool.and_eq_true _ _ |>.mp h with ⟨h1, h2⟩
        rcases List.mem_cons.mp ha with e | ha'
        · subst e; exact ⟨c, List.mem_cons_self _ _, h1⟩
        · rcases match_mem ps ts h2 a ha' hpc hus with ⟨c', hc', hl⟩
          exact ⟨c', List.mem_cons_of_mem _ hc', hl⟩
termination_by p t => (t.length, p.length)

/-! ### Folded-occurrence lemmas -/

theorem hasFold_cons_eq (n : Str) (c : Char) (s : Str) :
    hasFold n (c :: s) = (begFold n (c :: s) || hasFold n s) := rfl

theorem begFold_append_self (n s : Str) : begFold n (n ++ s) = true := by
  induction n with
  | nil => rfl
  | cons a as ih => simp [begFold, likeC_refl, ih]

theorem begFold_of_append {a b s : Str} (h : begFold (a ++ b) s = true) :
    begFold a s = true := by
  induction a generalizing s with
  | nil => rfl
  | cons x xs ih =>
    cases s with
    | nil => simp [begFold] at h
    | cons y ys =>
      simp only [List.cons_append, begFold, Bool.and_eq_true] at h ⊢
      exact ⟨h.1, ih h.2⟩

theorem hasFold_of_begFold {n s : Str} (h : begFold n s = true) : hasFold n s = true := by
  cases s with
  | nil => cases n with
    | nil => rfl
    | cons a as => simp [begFold] at h
  | cons c r => simp [hasFold, h]

theorem hasFold_of_append {a b s : Str} (h : hasFold (a ++ b) s = true) :
    hasFold a s = true := by
  induction s with
  | nil =>
    simp only [hasFold, List.isEmpty_eq_true, List.append_eq_nil] at h ⊢
    exact h.1
  | cons c r ih =>
    simp only [hasFold, Bool.or_eq_true] at h ⊢
    rcases h with h | h
    · exact Or.inl (begFold_of_append h)
    · exact Or.inr (ih h)

theorem begFold_cancel (l a b : Str) : begFold (l ++ a) (l ++ b) = begFold a b := by
  induction l with
  | nil => rfl
  | cons x xs ih => simp [begFold, likeC_refl, ih]

theorem hasFold_head_no {c : Char} {n s : Str} (hc : ∀ b ∈ s, likeC c b = false) :
    hasFold (c :: n) s = false := by
  induction s with
  | nil => rfl
  | cons b bs ih =>
    have h1 : likeC c b = false := hc b (List.mem_cons_self _ _)
    simp [hasFold, begFold, h1, ih (fun x hx => hc x (List.mem_cons_of_mem _ hx))]

theorem hasFold_drop {n : Str} : ∀ (d : Str) (k : Nat),
    begFold n (d.drop k) = true → hasFold n d = true := by
  intro d
  induction d with
  | nil =>
    intro k h
    rw [List.drop_nil] at h
    cases n with
    | nil => rfl
    | cons a as => simp [begFold] at h
  | cons c ts ih =>
    intro k h
    cases k with
    | zero => exact hasFold_of_begFold h
    | succ k' =>
      simp only [hasFold, Bool.or_eq_true]
      exact Or.inr (ih k' h)

theorem noWild_spec {n : Str} (h : noWild n = true) : '%' ∉ n ∧ '_' ∉ n := by
  simp only [noWild, Bool.and_eq_true, Bool.not_eq_true'] at h
  exact ⟨contains_false h.1, contains_false h.2⟩

theorem like_of_begFold {n : Str} (hw : noWild n = true) :
    ∀ (s : Str), begFold n s = true → likeMatch (n ++ ['%']) s = true := by
  induction n with
  | nil => intro s _; exact pct_all s
  | cons a n' ih =>
    intro s h
    obtain ⟨h1, h2⟩ := noWild_spec hw
    cases s with
    | nil => simp [begFold] at h
    | cons c ts =>
      simp only [begFold, Bool.and_eq_true] at h
      show likeMatch (a :: (n' ++ ['%'])) (c :: ts) = true
      rw [likeMatch, if_neg (fun e => h1 (by rw [← e]; exact List.mem_cons_self _ _)),
        if_neg (fun e => h2 (by rw [← e]; exact List.mem_cons_self _ _)), h.1, Bool.true_and]
      refine ih ?_ ts h.2
      simp only [noWild, Bool.and_eq_true, Bool.not_eq_true']
      constructor
      · exact contains_eq_false_of_not_mem (fun m => h1 (List.mem_cons_of_mem _ m))
      · exact contains_eq_false_of_not_mem (fun m => h2 (List.mem_cons_of_mem _ m))

theorem begFold_of_like {n : Str} (hw : noWild n = true) :
    ∀ (s : Str), likeMatch (n ++ ['%']) s = true → begFold n s = true := by
  induction n with
  | nil => intro s _; rfl
  | cons a n' ih =>
    intro s h
    obtain ⟨h1, h2⟩ := noWild_spec hw
    have ha : a ≠ '%' := fun e => h1 (by rw [← e]; exact List.mem_cons_self _ _)
    have hu : a ≠ '_' := fun e => h2 (by rw [← e]; exact List.mem_cons_self _ _)
    cases s with
    | nil =>
      rw [show (a :: n') ++ ['%'] = a :: (n' ++ ['%']) from rfl, likeMatch, if_neg ha] at h
      exact Bool.noConfusion h
    | cons c ts =>
      rw [show (a :: n') ++ ['%'] = a :: (n' ++ ['%']) from rfl, likeMatch, if_neg ha,
        if_neg hu] at h
      rcases Bool.and_eq_true _ _ |>.mp h with ⟨hl, hrest⟩
      simp only [begFold, Bool.and_eq_true]
      refine ⟨hl, ih ?_ ts hrest⟩
      simp only [noWild, Bool.and_eq_true, Bool.not_eq_true']
      constructor
      · exact contains_eq_false_of_not_mem (fun m => h1 (List.mem_cons_of_mem _ m))
      · exact contains_eq_false_of_not_mem (fun m => h2 (List.mem_cons_of_mem _ m))

theorem noWild_tagNeedle {rid : Str} (h : okId rid = true) :
    noWild (tagNeedle rid) = true := by
  simp only [noWild, Bool.and_eq_true, Bool.not_eq_true']
  constructor
  · apply contains_eq_false_of_not_mem
    intro m
    rcases List.mem_append.mp m with m | m
    · rcases List.mem_append.mp m with m | m
      · simp [tagMark] at m
      · exact absurd rfl (okChar_spec (okId_mem h _ m)).2.2.2.2.1
    · simp [rbrS] at m
  · apply contains_eq_false_of_not_mem
    intro m
    rcases List.mem_append.mp m with m | m
    · rcases List.mem_append.mp m with m | m
      · simp [tagMark] at m
      · exact absurd rfl (okChar_spec (okId_mem h _ m)).2.2.2.2.2
    · simp [rbrS] at m

/-- For a wildcard-free needle, matching `%needle%` is exactly folded
substring occurrence. -/
theorem pattern_hasFold {n d : Str} (hw : noWild n = true)
    (h : likeMatch ('%' :: (n ++ ['%'])) d = true) : hasFold n d = true := by
  rcases (pct_iff _ d).mp h with ⟨k, hk⟩
  exact hasFold_drop d k (begFold_of_like hw _ hk)

theorem hasFold_pattern {n d : Str} (hw : noWild n = true)
    (h : hasFold n d = true) : likeMatch ('%' :: (n ++ ['%'])) d = true := by
  have hdrop : ∀ (d : Str), hasFold n d = true → ∃ k, begFold n (d.drop k) = true := by
    intro d
    induction d with
    | nil =>
      intro hh
      cases n with
      | nil => exact ⟨0, rfl⟩
      | cons a as => simp [hasFold, List.isEmpty] at hh
    | cons c ts ih =>
      intro hh
      simp only [hasFold, Bool.or_eq_true] at hh
      rcases hh with hh | hh
      · exact ⟨0, hh⟩
      · rcases ih hh with ⟨k, hk⟩
        exact ⟨k + 1, hk⟩
  rcases hdrop d h with ⟨k, hk⟩
  exact (pct_iff _ d).mpr ⟨k, like_of_begFold hw _ hk⟩

theorem begFold_of_begMatch : ∀ {n s : Str}, begMatch n s = true → begFold n s = true := by
  intro n
  induction n with
  | nil => intro s _; rfl
  | cons a as ih =>
    intro s h
    cases s with
    | nil => simp [begMatch] at h
    | cons b bs =>
      simp only [begMatch, Bool.and_eq_true, beq_iff_eq] at h
      simp only [begFold, Bool.and_eq_true]
      exact ⟨h.1 ▸ likeC_refl a, ih h.2⟩

theorem hasFold_of_hasSub {n s : Str} (h : hasSub n s = true) : hasFold n s = true := by
  induction s with
  | nil => exact h
  | cons c ts ih =>
    simp only [hasSub, Bool.or_eq_true] at h
    simp only [hasFold, Bool.or_eq_true]
    rcases h with h | h
    · exact Or.inl (begFold_of_begMatch h)
    · exact Or.inr (ih h)

/-- The deletion sweep's SQL preselection `LIKE "%[TODOIST-%"` is implied
by the Python re-check `"[TODOIST-" in desc`, so modelling the sweep by
the (case-sensitive) containment check alone is faithful. -/
theorem sweep_like_subsumed {d : Str} (h : hasSub tagMark d = true) :
    likeMatch ('%' :: (tagMark ++ ['%'])) d = true :=
  hasFold_pattern (by decide) (hasFold_of_hasSub h)

/-- The folded-occurrence analogue of the forced-occurrence lemma: the
pattern payload `[TODOIST-<j>]` occurs (case-folded) in a canonically
tagged description `[TODOIST-<i>]<rest>` exactly when `j = i`, for rigid
ids. -/
theorem foldBracket_inj : ∀ {j i : Str} {r : Str}, okId i = true → okId j = true →
    begFold (j ++ [']']) (i ++ ']' :: r) = true → j = i := by
  intro j
  induction j with
  | nil =>
    intro i r hi _ h
    cases i with
    | nil => rfl
    | cons a as =>
      simp only [List.nil_append, List.cons_append, begFold, Bool.and_eq_true] at h
      exact absurd (likeC_rbrack h.1) (okChar_spec (okId_mem hi a (List.mem_cons_self _ _))).2.2.2.1
  | cons b bs ih =>
    intro i r hi hj h
    have hjb : okChar b = true := okId_mem hj b (List.mem_cons_self _ _)
    cases i with
    | nil =>
      simp only [List.cons_append, List.nil_append, begFold, Bool.and_eq_true] at h
      exact absurd (likeC_rbrack' h.1) (okChar_spec hjb).2.2.2.1
    | cons a as =>
      simp only [List.cons_append, begFold, Bool.and_eq_true] at h
      have hab : a = b := likeC_ok hjb h.1
      rw [← hab, ih (okId_tail hi) (okId_tail hj) h.2]

theorem hasFold_needle_canon {i j rest : Str}
    (hi : okId i = true) (hj : okId j = true) (hrest : '[' ∉ rest) :
    (hasFold (tagNeedle j) (tagNeedle i ++ rest) = true) ↔ j = i := by
  constructor
  · intro h
    have hsplit : tagNeedle i ++ rest = '[' :: (tailMark ++ (i ++ ']' :: rest)) :=
      canon_split i rest
    rw [hsplit, hasFold_cons_eq] at h
    rcases Bool.or_eq_true _ _ |>.mp h with h | h
    · have h' : begFold (tagMark ++ (j ++ [']'])) (tagMark ++ (i ++ ']' :: rest)) = true := h
      rw [begFold_cancel] at h'
      exact foldBracket_inj hi hj h'
    · have hno : ∀ b ∈ tailMark ++ (i ++ ']' :: rest), likeC '[' b = false := by
        intro b hb
        cases hl : likeC '[' b with
        | false => rfl
        | true =>
          exfalso
          have hbe : b = '[' := likeC_lbrack hl
          subst hbe
          rcases List.mem_append.mp hb with m | m
          · simp [tailMark] at m
          · rcases List.mem_append.mp m with m | m
            · exact absurd rfl (okChar_spec (okId_mem hi _ m)).2.2.1
            · rcases List.mem_cons.mp m with e | m
              · exact absurd e (by decide)
              · exact hrest m
      have e1 : tagNeedle j = '[' :: (tailMark ++ (j ++ [']'])) := by
        have := canon_split j []
        simpa using this
      rw [e1, hasFold_head_no hno] at h
      exact Bool.noConfusion h
  · rintro rfl
    exact hasFold_of_begFold (begFold_append_self (tagNeedle j) rest)

/-! ### List helper lemmas -/

theorem find?_append_some {α : Type} {p : α → Bool} {l₁ l₂ : List α} {a : α}
    (h : l₁.find? p = some a) : (l₁ ++ l₂).find? p = some a := by
  rw [List.find?_append, h]; rfl

theorem find?_append_none {α : Type} {p : α → Bool} {l₁ l₂ : List α}
    (h : l₁.find? p = none) : (l₁ ++ l₂).find? p = l₂.find? p := by
  rw [List.find?_append, h]; rfl

theorem find?_map_pres {α : Type} {f : α → α} {p : α → Bool}
    (hf : ∀ x, p (f x) = p x) : ∀ l : List α, (l.map f).find? p = (l.find? p).map f := by
  intro l
  induction l with
  | nil => rfl
  | cons x xs ih =>
    by_cases hx : p x = true
    · rw [List.map_cons, List.find?_cons_of_pos _ ((hf x).trans hx),
        List.find?_cons_of_pos _ hx, Option.map_some']
    · rw [List.map_cons, List.find?_cons_of_neg _ (by rw [hf x]; exact hx),
        List.find?_cons_of_neg _ hx, ih]

theorem find?_filter_keep {α : Type} {p q : α → Bool} :
    ∀ {l : List α}, (∀ x ∈ l, p x = true → q x = true) →
    (l.filter q).find? p = l.find? p := by
  intro l
  induction l with
  | nil => intro _; rfl
  | cons x xs ih =>
    intro h
    have hxs : ∀ x ∈ xs, p x = true → q x = true :=
      fun y hy => h y (List.mem_cons_of_mem _ hy)
    by_cases hq : q x = true
    · rw [List.filter_cons_of_pos hq]
      by_cases hp : p x = true
      · rw [List.find?_cons_of_pos _ hp, List.find?_cons_of_pos _ hp]
      · rw [List.find?_cons_of_neg _ hp, List.find?_cons_of_neg _ hp, ih hxs]
    · have hp : ¬p x = true := fun hp => hq (h x (List.mem_cons_self _ _) hp)
      rw [List.filter_cons_of_neg (by simpa using hq),
        List.find?_cons_of_neg _ hp, ih hxs]

theorem map_eq_self_of {α : Type} {f : α → α} :
    ∀ {l : List α}, (∀ x ∈ l, f x = x) → l.map f = l := by
  intro l
  induction l with
  | nil => intro _; rfl
  | cons x xs ih =>
    intro h
    rw [List.map_cons, h x (List.mem_cons_self _ _),
      ih (fun y hy => h y (List.mem_cons_of_mem _ hy))]

theorem updStatus_fields (i : Nat) (s : Str) (t : Task) :
    (updStatus i s t).id = t.id ∧ (updStatus i s t).title = t.title ∧
    (updStatus i s t).description = t.description ∧
    (updStatus i s t).created_at = t.created_at ∧
    (updStatus i s t).completed_at = t.completed_at := by
  unfold updStatus; by_cases h : t.id = i <;> simp [h]

theorem updStatus_of_ne {i : Nat} {s : Str} {t : Task} (h : t.id ≠ i) :
    updStatus i s t = t := if_neg h

theorem updStatus_of_eq {i : Nat} {s : Str} {t : Task} (h : t.id = i) :
    updStatus i s t = { t with status := s } := if_pos h

theorem WFTask_of_desc {t t' : Task} (e : t'.description = t.description)
    (h : WFTask t) : WFTask t' := by
  unfold WFTask at *; rw [e]; exact h

/-- Distinct row ids identify rows: the store's primary-key discipline. -/
theorem nodup_key_inj {l : List Task} (h : (l.map Task.id).Nodup) :
    ∀ t1 ∈ l, ∀ t2 ∈ l, t1.id = t2.id → t1 = t2 := by
  induction l with
  | nil => intro t1 h1; cases h1
  | cons x xs ih =>
    rw [List.map_cons, List.nodup_cons] at h
    intro t1 h1 t2 h2 hid
    rcases List.mem_cons.mp h1 with e1 | h1' <;> rcases List.mem_cons.mp h2 with e2 | h2'
    · rw [e1, e2]
    · subst e1
      exact absurd (by rw [hid]; exact List.mem_map_of_mem Task.id h2') h.1
    · subst e2
      exact absurd (by rw [← hid]; exact List.mem_map_of_mem Task.id h1') h.1
    · exact ih h.2 t1 h1' t2 h2' hid

/-! ### Invariant preservation through one reconciliation step -/

theorem cleanRemote_spec {r : RemoteTask} (h : cleanRemote r = true) :
    cleanId r.rid = true ∧ '[' ∉ r.rdescription := by
  simp only [cleanRemote, Bool.and_eq_true, Bool.not_eq_true'] at h
  exact ⟨h.1, contains_false h.2⟩

theorem okRemote_spec {r : RemoteTask} (h : okRemote r = true) :
    okId r.rid = true ∧ '[' ∉ r.rdescription := by
  simp only [okRemote, Bool.and_eq_true, Bool.not_eq_true'] at h
  exact ⟨h.1, contains_false h.2⟩

/-- The description built for an imported remote task is a canonical tag
followed by some trailing text. -/
theorem fullDescription_shape (r : RemoteTask) :
    ∃ rest, fullDescription r = tagNeedle r.rid ++ rest := by
  unfold fullDescription
  by_cases he : r.rdescription.isEmpty
  · exact ⟨[], by rw [if_pos he, List.append_nil]⟩
  · exact ⟨' ' :: r.rdescription, by rw [if_neg he]⟩

/-- The description built for an imported remote task is a canonical tag
followed by bracket-free text, when the remote description is `[`-free. -/
theorem fullDescription_canon {r : RemoteTask} (hdesc : '[' ∉ r.rdescription) :
    ∃ rest, fullDescription r = tagNeedle r.rid ++ rest ∧ '[' ∉ rest := by
  unfold fullDescription
  by_cases he : r.rdescription.isEmpty
  · exact ⟨[], by rw [if_pos he, List.append_nil], fun m => absurd m (List.not_mem_nil _)⟩
  · refine ⟨' ' :: r.rdescription, by rw [if_neg he], fun m => ?_⟩
    rcases List.mem_cons.mp m with e | m
    · exact absurd e (by decide)
    · exact hdesc m

theorem setStatus_WF {st : Store} {i : Nat} {s : Str} (h : WFStore st) :
    WFStore (setStatus i s st) := by
  intro t ht
  rcases List.mem_map.mp ht with ⟨t0, ht0, rfl⟩
  exact WFTask_of_desc (updStatus_fields i s t0).2.2.1 (h t0 ht0)

theorem setStatus_ids (st : Store) (i : Nat) (s : Str) :
    (setStatus i s st).tasks.map Task.id = st.tasks.map Task.id := by
  show (st.tasks.map (updStatus i s)).map Task.id = _
  rw [List.map_map]
  exact List.map_congr_left (fun t _ => (updStatus_fields i s t).1)

theorem setStatus_UIds {st : Store} {i : Nat} {s : Str} (h : UIds st) :
    UIds (setStatus i s st) := by
  refine ⟨by rw [setStatus_ids]; exact h.1, ?_⟩
  intro t ht
  rcases List.mem_map.mp ht with ⟨t0, ht0, rfl⟩
  rw [(updStatus_fields i s t0).1]
  exact h.2 t0 ht0

theorem insertRemote_WF {st : Store} {now : Str} {r : RemoteTask}
    (h : WFStore st) (hr : cleanRemote r = true) : WFStore (insertRemote now st r) := by
  intro t ht
  rcases List.mem_append.mp ht with ht | ht
  · exact h t ht
  · rcases List.mem_singleton.mp ht with rfl
    obtain ⟨rest, hfd, hrest⟩ := fullDescription_canon (cleanRemote_spec hr).2
    exact Or.inr ⟨r.rid, rest, hfd, (cleanRemote_spec hr).1, hrest⟩

theorem insertRemote_UIds {st : Store} {now : Str} {r : RemoteTask}
    (h : UIds st) : UIds (insertRemote now st r) := by
  constructor
  · show ((st.tasks ++ [_]).map Task.id).Nodup
    rw [List.map_append]
    refine List.nodup_append.mpr ⟨h.1, List.nodup_singleton _, ?_⟩
    intro a ha hb
    rcases List.mem_map.mp ha with ⟨t0, ht0, rfl⟩
    have hb' : t0.id = st.nextId := by simpa using hb
    exact absurd (hb' ▸ h.2 t0 ht0) (lt_irrefl _)
  · intro t ht
    rcases List.mem_append.mp ht with ht | ht
    · exact Nat.lt_trans (h.2 t ht) (Nat.lt_succ_self _)
    · rcases List.mem_singleton.mp ht with rfl
      exact Nat.lt_succ_self _

theorem tagNeedle_assoc (rid : Str) : tagMark ++ (rid ++ rbrS) = tagNeedle rid :=
  (List.append_assoc _ _ _).symm

theorem findTag_eq (rid : Str) (st : Store) :
    findTag rid st = st.tasks.find? (fun x => likeMatch (findPattern rid) x.description) := rfl

theorem findTag_some {rid : Str} {st : Store} {t : Task} (h : findTag rid st = some t) :
    likeMatch (findPattern rid) t.description = true := by
  have h' : st.tasks.find? (fun x => likeMatch (findPattern rid) x.description) = some t := h
  have h2 := List.find?_some h'
  exact h2

theorem findTag_mem {rid : Str} {st : Store} {t : Task} (h : findTag rid st = some t) :
    t ∈ st.tasks := by
  have h' : st.tasks.find? (fun x => likeMatch (findPattern rid) x.description) = some t := h
  exact List.mem_of_find?_eq_some h'

/-- A successful lookup gives a case-folded occurrence of the tag payload
in the row's description (the pattern has no wildcards for rigid ids). -/
theorem findTag_hasFold {rid : Str} {st : Store} {t : Task}
    (hok : okId rid = true) (h : findTag rid st = some t) :
    hasFold (tagNeedle rid) t.description = true := by
  have hlm : likeMatch ('%' :: (tagNeedle rid ++ ['%'])) t.description = true := findTag_some h
  exact pattern_hasFold (noWild_tagNeedle hok) hlm

/-- A row matching the pattern for a rigid id in a rigidly tagged store is
canonically tagged with exactly that id. -/
theorem findTag_characterize {st : Store} {rid : Str} {t : Task}
    (hwf : OkStore st) (hcr : okId rid = true) (h : findTag rid st = some t) :
    ∃ rest, t.description = tagNeedle rid ++ rest ∧ '[' ∉ rest := by
  have hsub : hasFold (tagNeedle rid) t.description = true := findTag_hasFold hcr h
  have hmem : t ∈ st.tasks := findTag_mem h
  rcases hwf t hmem with hno | ⟨i, rest, hdesc, hclean, hrest⟩
  · have : hasFold tagMark t.description = true :=
      hasFold_of_append (tagNeedle_assoc rid ▸ hsub)
    rw [hno] at this
    exact Bool.noConfusion this
  · rw [hdesc] at hsub
    have he : rid = i := (hasFold_needle_canon hclean hcr hrest).mp hsub
    exact ⟨rest, by rw [hdesc, he], hrest⟩

theorem step1_eq_imp {now : Str} {acc : Store × Nat × Nat} {r : RemoteTask}
    (h : findTag r.rid acc.1 = none) :
    step1 now acc r = (insertRemote now acc.1 r, acc.2.1 + 1, acc.2.2) := by
  unfold step1; rw [h]

theorem step1_eq_upd {now : Str} {acc : Store × Nat × Nat} {r : RemoteTask} {ex : Task}
    (h : findTag r.rid acc.1 = some ex) (hst : ex.status ≠ statusOf r) :
    step1 now acc r = (setStatus ex.id (statusOf r) acc.1, acc.2.1, acc.2.2 + 1) := by
  unfold step1; rw [h]; exact if_pos hst

theorem step1_eq_skip {now : Str} {acc : Store × Nat × Nat} {r : RemoteTask} {ex : Task}
    (h : findTag r.rid acc.1 = some ex) (hst : ¬ex.status ≠ statusOf r) :
    step1 now acc r = acc := by
  unfold step1; rw [h]; exact if_neg hst

/-- `findTag` over a store whose rows got a status update is the status
update of the original `findTag` result. -/
theorem findTag_setStatus (rid : Str) (i : Nat) (s : Str) (st : Store) :
    findTag rid (setStatus i s st) = (findTag rid st).map (updStatus i s) := by
  have base : ∀ x : Task,
      (fun y : Task => likeMatch (findPattern rid) y.description) (updStatus i s x) =
      (fun y : Task => likeMatch (findPattern rid) y.description) x := by
    intro x
    show likeMatch (findPattern rid) (updStatus i s x).description = _
    rw [(updStatus_fields i s x).2.2.1]
  exact find?_map_pres base st.tasks

/-- After one step of the import/update loop the remote task just
processed has a matching local row with the remote's status (the freshly
inserted row always matches its own pattern, so no cleanliness is
needed). -/
theorem step1_good {now : Str} {acc : Store × Nat × Nat} {r : RemoteTask} :
    goodFor r.rid (statusOf r) (step1 now acc r).1 := by
  cases hft : findTag r.rid acc.1 with
  | none =>
    rw [step1_eq_imp hft]
    obtain ⟨rest, hfd⟩ := fullDescription_shape r
    refine ⟨importedTask now acc.1 r, ?_, rfl⟩
    have hft' : acc.1.tasks.find?
        (fun x => likeMatch (findPattern r.rid) x.description) = none := hft
    show (acc.1.tasks ++ [importedTask now acc.1 r]).find? _ = _
    rw [find?_append_none hft']
    apply List.find?_cons_of_pos
    show likeMatch (findPattern r.rid) (fullDescription r) = true
    rw [hfd]
    show likeMatch ('%' :: (tagNeedle r.rid ++ ['%'])) (tagNeedle r.rid ++ rest) = true
    exact (pct_iff _ _).mpr ⟨0, by rw [List.drop_zero]; exact like_self_append _ _⟩
  | some ex =>
    by_cases hst : ex.status ≠ statusOf r
    · rw [step1_eq_upd hft hst]
      refine ⟨updStatus ex.id (statusOf r) ex, ?_, ?_⟩
      · show findTag r.rid (setStatus ex.id (statusOf r) acc.1) = _
        rw [findTag_setStatus, hft, Option.map_some']
      · rw [updStatus_of_eq rfl]
    · rw [step1_eq_skip hft hst]
      exact ⟨ex, hft, Classical.not_not.mp hst⟩

/-- One step for remote task `r` does not disturb the matching row of any
other rigid id. -/
theorem step1_pres {now : Str} {acc : Store × Nat × Nat} {r : RemoteTask} {rid s : Str}
    (hwf : OkStore acc.1) (hu : UIds acc.1) (hr : okRemote r = true)
    (hcrid : okId rid = true) (hne : rid ≠ r.rid)
    (hg : goodFor rid s acc.1) : goodFor rid s (step1 now acc r).1 := by
  obtain ⟨t, hfind, hstat⟩ := hg
  cases hft : findTag r.rid acc.1 with
  | none =>
    rw [step1_eq_imp hft]
    refine ⟨t, ?_, hstat⟩
    have hfind' : acc.1.tasks.find?
        (fun x => likeMatch (findPattern rid) x.description) = some t := hfind
    show (acc.1.tasks ++ [importedTask now acc.1 r]).find? _ = _
    rw [find?_append_some hfind']
  | some ex =>
    by_cases hst : ex.status ≠ statusOf r
    · rw [step1_eq_upd hft hst]
      have hid : t.id ≠ ex.id := by
        intro he
        have het : t = ex :=
          nodup_key_inj hu.1 t (findTag_mem hfind) ex (findTag_mem hft) he
        obtain ⟨reste, hdesce, hreste⟩ :=
          findTag_characterize hwf (okRemote_spec hr).1 hft
        have hsub : hasFold (tagNeedle rid) t.description = true := findTag_hasFold hcrid hfind
        rw [het, hdesce] at hsub
        exact hne ((hasFold_needle_canon (okRemote_spec hr).1 hcrid hreste).mp hsub)
      refine ⟨t, ?_, hstat⟩
      rw [findTag_setStatus, hfind, Option.map_some', updStatus_of_ne hid]
    · rw [step1_eq_skip hft hst]
      exact ⟨t, hfind, hstat⟩

theorem OkTask_of_desc {t t' : Task} (e : t'.description = t.description)
    (h : OkTask t) : OkTask t' := by
  unfold OkTask at *; rw [e]; exact h

theorem setStatus_OkWF {st : Store} {i : Nat} {s : Str} (h : OkStore st) :
    OkStore (setStatus i s st) := by
  intro t ht
  rcases List.mem_map.mp ht with ⟨t0, ht0, rfl⟩
  exact OkTask_of_desc (updStatus_fields i s t0).2.2.1 (h t0 ht0)

theorem insertRemote_OkWF {st : Store} {now : Str} {r : RemoteTask}
    (h : OkStore st) (hr : okRemote r = true) : OkStore (insertRemote now st r) := by
  intro t ht
  rcases List.mem_append.mp ht with ht | ht
  · exact h t ht
  · rcases List.mem_singleton.mp ht with rfl
    obtain ⟨rest, hfd, hrest⟩ := fullDescription_canon (okRemote_spec hr).2
    exact Or.inr ⟨r.rid, rest, hfd, (okRemote_spec hr).1, hrest⟩

/-- One step of the import/update loop keeps the store rigidly tagged with
unique ids. -/
theorem step1_inv_ok {now : Str} {acc : Store × Nat × Nat} {r : RemoteTask}
    (hwf : OkStore acc.1) (hu : UIds acc.1) (hr : okRemote r = true) :
    OkStore (step1 now acc r).1 ∧ UIds (step1 now acc r).1 := by
  cases hft : findTag r.rid acc.1 with
  | none =>
    rw [step1_eq_imp hft]
    exact ⟨insertRemote_OkWF hwf hr, insertRemote_UIds hu⟩
  | some ex =>
    by_cases hst : ex.status ≠ statusOf r
    · rw [step1_eq_upd hft hst]
      exact ⟨setStatus_OkWF hwf, setStatus_UIds hu⟩
    · rw [step1_eq_skip hft hst]
      exact ⟨hwf, hu⟩

/-- One step of the import/update loop keeps the store well-tagged with
unique ids. -/
theorem step1_inv {now : Str} {acc : Store × Nat × Nat} {r : RemoteTask}
    (hwf : WFStore acc.1) (hu : UIds acc.1) (hr : cleanRemote r = true) :
    WFStore (step1 now acc r).1 ∧ UIds (step1 now acc r).1 := by
  cases hft : findTag r.rid acc.1 with
  | none =>
    rw [step1_eq_imp hft]
    exact ⟨insertRemote_WF hwf hr, insertRemote_UIds hu⟩
  | some ex =>
    by_cases hst : ex.status ≠ statusOf r
    · rw [step1_eq_upd hft hst]
      exact ⟨setStatus_WF hwf, setStatus_UIds hu⟩
    · rw [step1_eq_skip hft hst]
      exact ⟨hwf, hu⟩

/-- Over the whole import/update loop: invariants are kept, matching rows
of ids outside the remaining snapshot are untouched, and every processed
remote task ends with a matching row of its status. -/
theorem fold_good (now : Str) : ∀ (todo : List RemoteTask) (acc : Store × Nat × Nat),
    OkStore acc.1 → UIds acc.1 →
    (∀ r ∈ todo, okRemote r = true) → (ridsOf todo).Nodup →
    (OkStore (List.foldl (step1 now) acc todo).1 ∧ UIds (List.foldl (step1 now) acc todo).1) ∧
    (∀ rid s, okId rid = true → rid ∉ ridsOf todo → goodFor rid s acc.1 →
        goodFor rid s (List.foldl (step1 now) acc todo).1) ∧
    (∀ r ∈ todo, goodFor r.rid (statusOf r) (List.foldl (step1 now) acc todo).1) := by
  intro todo
  induction todo with
  | nil =>
    intro acc hwf hu _ _
    exact ⟨⟨hwf, hu⟩, fun _ _ _ _ hg => hg, fun r hr => absurd hr (List.not_mem_nil r)⟩
  | cons r rest ih =>
    intro acc hwf hu hcl hnd
    rw [List.foldl_cons]
    have hrcl : okRemote r = true := hcl r (List.mem_cons_self _ _)
    have hstep := @step1_inv_ok now acc r hwf hu hrcl
    have hclrest : ∀ x ∈ rest, okRemote x = true :=
      fun x hx => hcl x (List.mem_cons_of_mem _ hx)
    have hnd' : (r.rid :: ridsOf rest).Nodup := by
      simpa [ridsOf] using hnd
    have hndrest : (ridsOf rest).Nodup := (List.nodup_cons.mp hnd').2
    have hridnot : r.rid ∉ ridsOf rest := (List.nodup_cons.mp hnd').1
    obtain ⟨ihInv, ihPres, ihAll⟩ := ih (step1 now acc r) hstep.1 hstep.2 hclrest hndrest
    refine ⟨ihInv, ?_, ?_⟩
    · intro rid s hcrid hnmem hg
      have hne : rid ≠ r.rid := by
        intro e
        exact hnmem (by rw [e, ridsOf]; exact List.mem_cons_self _ _)
      have hnmem' : rid ∉ ridsOf rest := by
        intro m
        exact hnmem (by rw [ridsOf]; exact List.mem_cons_of_mem _ (by simpa [ridsOf] using m))
      exact ihPres rid s hcrid hnmem' (step1_pres hwf hu hrcl hcrid hne hg)
    · intro r' hr'
      rcases List.mem_cons.mp hr' with e | hr'
      · subst e
        exact ihPres r'.rid (statusOf r') (okRemote_spec hrcl).1 hridnot step1_good
      · exact ihAll r' hr'

/-! ### The deletion sweep -/

/-- The store left by the deletion sweep of server.py lines 295-309. -/
def sweepStore (ids : List Str) (st : Store) : Store :=
  { st with tasks := st.tasks.filter (fun t => !doomed ids t.description) }

theorem syncSuccess_eq (now : Str) (ts : List RemoteTask) (st : Store) :
    syncSuccess now ts st =
      ⟨sweepStore (ridsOf ts) (ts.foldl (step1 now) (st, 0, 0)).1,
       (ts.foldl (step1 now) (st, 0, 0)).2.1,
       (ts.foldl (step1 now) (st, 0, 0)).2.2,
       ((ts.foldl (step1 now) (st, 0, 0)).1.tasks.filter
         (fun t => doomed (ridsOf ts) t.description)).length,
       (ts.foldl (step1 now) (st, 0, 0)).2.1 + (ts.foldl (step1 now) (st, 0, 0)).2.2 +
       ((ts.foldl (step1 now) (st, 0, 0)).1.tasks.filter
         (fun t => doomed (ridsOf ts) t.description)).length⟩ := rfl

/-- A canonically tagged row whose id is in the snapshot is not doomed. -/
theorem doomed_canon_false {ids : List Str} {i rest : Str}
    (hci : cleanId i = true) (hrest : '[' ∉ rest) (hmem : i ∈ ids) :
    doomed ids (tagNeedle i ++ rest) = false := by
  unfold doomed
  rw [extractTid_canon hci hrest, contains_of_mem hmem]
  simp

/-- The sweep keeps every row matching a snapshot id, so the lookup for a
snapshot id is unchanged. -/
theorem sweep_goodFor {st : Store} {ids : List Str} {rid s : Str}
    (hwf : OkStore st) (hcrid : okId rid = true) (hmem : rid ∈ ids)
    (hg : goodFor rid s st) : goodFor rid s (sweepStore ids st) := by
  obtain ⟨t, hfind, hstat⟩ := hg
  refine ⟨t, ?_, hstat⟩
  have hfind' : st.tasks.find? (fun x => likeMatch (findPattern rid) x.description) = some t :=
    hfind
  show (st.tasks.filter _).find? (fun x => likeMatch (findPattern rid) x.description) = some t
  rw [find?_filter_keep, hfind']
  intro x hx hpx
  have hx' : findTag rid ⟨[x], 0⟩ = some x := by
    rw [findTag_eq]
    exact List.find?_cons_of_pos _ hpx
  obtain ⟨rest, hdesc, hrest⟩ :=
    findTag_characterize
      (fun y hy => by rw [List.mem_singleton.mp hy]; exact hwf x hx) hcrid hx'
  rw [hdesc, doomed_canon_false (okId_cleanId hcrid) hrest hmem]
  rfl

theorem sweepStore_WF {ids : List Str} {st : Store} (h : WFStore st) :
    WFStore (sweepStore ids st) :=
  fun t ht => h t (List.mem_of_mem_filter ht)

theorem sweepStore_OkWF {ids : List Str} {st : Store} (h : OkStore st) :
    OkStore (sweepStore ids st) :=
  fun t ht => h t (List.mem_of_mem_filter ht)

theorem sweepStore_UIds {ids : List Str} {st : Store} (h : UIds st) :
    UIds (sweepStore ids st) := by
  refine ⟨?_, fun t ht => h.2 t (List.mem_of_mem_filter ht)⟩
  exact ((List.filter_sublist st.tasks).map Task.id).nodup h.1

theorem sweepStore_not_doomed {ids : List Str} {st : Store} :
    ∀ t ∈ (sweepStore ids st).tasks, doomed ids t.description = false := by
  intro t ht
  have := (List.mem_filter.mp ht).2
  simpa using this

/-- A reconciliation pass over a store where every snapshot id already has
a row of matching status and no row is doomed is a no-op: 0 imports,
0 updates, 0 deletions, store unchanged. -/
theorem fold_noop (now : Str) : ∀ (ts : List RemoteTask) (st : Store) (imp upd : Nat),
    (∀ r ∈ ts, goodFor r.rid (statusOf r) st) →
    List.foldl (step1 now) (st, imp, upd) ts = (st, imp, upd) := by
  intro ts
  induction ts with
  | nil => intro st imp upd _; rfl
  | cons r rest ih =>
    intro st imp upd h
    rw [List.foldl_cons]
    obtain ⟨t, hfind, hstat⟩ := h r (List.mem_cons_self _ _)
    have hstep : step1 now (st, imp, upd) r = (st, imp, upd) :=
      step1_eq_skip hfind (by rw [hstat]; exact fun hc => hc rfl)
    rw [hstep, ih st imp upd (fun r' h' => h r' (List.mem_cons_of_mem _ h'))]

theorem filter_nil_of_false {α : Type} {p : α → Bool} {l : List α}
    (h : ∀ x ∈ l, p x = false) : l.filter p = [] :=
  List.filter_eq_nil_iff.mpr (fun a ha => by rw [h a ha]; exact Bool.false_ne_true)

theorem filter_self_of_true {α : Type} {p : α → Bool} {l : List α}
    (h : ∀ x ∈ l, p x = true) : l.filter p = l :=
  List.filter_eq_self.mpr h

theorem syncSuccess_of_good {now : Str} {ts : List RemoteTask} {st : Store}
    (hall : ∀ r ∈ ts, goodFor r.rid (statusOf r) st)
    (hkeep : ∀ t ∈ st.tasks, doomed (ridsOf ts) t.description = false) :
    syncSuccess now ts st = ⟨st, 0, 0, 0, 0⟩ := by
  rw [syncSuccess_eq, fold_noop now ts st 0 0 hall]
  have h1 : st.tasks.filter (fun t => doomed (ridsOf ts) t.description) = [] :=
    filter_nil_of_false hkeep
  have h2 : st.tasks.filter (fun t => !doomed (ridsOf ts) t.description) = st.tasks :=
    filter_self_of_true (fun t ht => by rw [hkeep t ht]; rfl)
  rw [sweepStore]
  simp only [h1, h2, List.length_nil]

/-- After one reconciliation pass on a well-tagged store against a clean
snapshot, the store is ready for an idempotent repeat: every snapshot id
has a matching row of the remote status, and no row is doomed. -/
theorem syncSuccess_establishes {now : Str} {ts : List RemoteTask} {st : Store}
    (hcs : OkSnap ts) (hwf : OkStore st) (hu : UIds st) :
    (∀ r ∈ ts, goodFor r.rid (statusOf r) (syncSuccess now ts st).store) ∧
    (∀ t ∈ (syncSuccess now ts st).store.tasks,
        doomed (ridsOf ts) t.description = false) ∧
    OkStore (syncSuccess now ts st).store ∧ UIds (syncSuccess now ts st).store := by
  obtain ⟨hInv, _, hAll⟩ := fold_good now ts (st, 0, 0) hwf hu hcs.2 hcs.1
  have hstore : (syncSuccess now ts st).store =
      sweepStore (ridsOf ts) (ts.foldl (step1 now) (st, 0, 0)).1 := by
    rw [syncSuccess_eq]
  rw [hstore]
  refine ⟨?_, fun t ht => sweepStore_not_doomed t ht, sweepStore_OkWF hInv.1,
    sweepStore_UIds hInv.2⟩
  intro r hr
  exact sweep_goodFor hInv.1 (okRemote_spec (hcs.2 r hr)).1
    (List.mem_map_of_mem RemoteTask.rid hr) (hAll r hr)

/-! ### The frame of a reconciliation pass: only status is ever written -/

/-- `t` agrees with the original row `t0` on every column except possibly
status. -/
def eqFrame (t0 t : Task) : Prop :=
  t.id = t0.id ∧ t.title = t0.title ∧ t.description = t0.description ∧
  t.created_at = t0.created_at ∧ t.completed_at = t0.completed_at

/-- Every row of `st` is either an original row of `st0` changed at most in
status, or a freshly inserted row with a new id. -/
def FrameRel (st0 st : Store) : Prop :=
  (∀ t ∈ st.tasks, (∃ t0 ∈ st0.tasks, eqFrame t0 t) ∨ st0.nextId ≤ t.id) ∧
  st0.nextId ≤ st.nextId

theorem frameRel_refl (st : Store) : FrameRel st st :=
  ⟨fun t ht => Or.inl ⟨t, ht, rfl, rfl, rfl, rfl, rfl⟩, le_refl _⟩

theorem eqFrame_updStatus {t0 t : Task} (i : Nat) (s : Str) (h : eqFrame t0 t) :
    eqFrame t0 (updStatus i s t) := by
  obtain ⟨f1, f2, f3, f4, f5⟩ := updStatus_fields i s t
  exact ⟨f1.trans h.1, f2.trans h.2.1, f3.trans h.2.2.1,
    f4.trans h.2.2.2.1, f5.trans h.2.2.2.2⟩

theorem frameRel_step {st0 : Store} {now : Str} {acc : Store × Nat × Nat} {r : RemoteTask}
    (h : FrameRel st0 acc.1) : FrameRel st0 (step1 now acc r).1 := by
  cases hft : findTag r.rid acc.1 with
  | none =>
    rw [step1_eq_imp hft]
    constructor
    · intro t ht
      rcases List.mem_append.mp ht with ht | ht
      · exact h.1 t ht
      · have e := List.mem_singleton.mp ht
        rw [e]
        exact Or.inr h.2
    · exact le_trans h.2 (Nat.le_succ _)
  | some ex =>
    by_cases hst : ex.status ≠ statusOf r
    · rw [step1_eq_upd hft hst]
      constructor
      · intro t ht
        rcases List.mem_map.mp ht with ⟨t1, ht1, rfl⟩
        rcases h.1 t1 ht1 with ⟨t0, ht0, hf⟩ | hge
        · exact Or.inl ⟨t0, ht0, eqFrame_updStatus _ _ hf⟩
        · exact Or.inr (le_trans hge (le_of_eq (updStatus_fields _ _ t1).1.symm))
      · exact h.2
    · rw [step1_eq_skip hft hst]
      exact h

theorem frameRel_fold {st0 : Store} (now : Str) :
    ∀ (ts : List RemoteTask) (acc : Store × Nat × Nat), FrameRel st0 acc.1 →
    FrameRel st0 (List.foldl (step1 now) acc ts).1 := by
  intro ts
  induction ts with
  | nil => intro acc h; exact h
  | cons r rest ih =>
    intro acc h
    rw [List.foldl_cons]
    exact ih _ (frameRel_step h)

theorem frameRel_sweep {st0 st : Store} {ids : List Str} (h : FrameRel st0 st) :
    FrameRel st0 (sweepStore ids st) :=
  ⟨fun t ht => h.1 t (List.mem_of_mem_filter ht), h.2⟩

theorem frameRel_sync (token now : Str) (fetch : FetchResult) (st : Store) :
    FrameRel st (sync_with_todoist token now fetch st).store := by
  by_cases he : token.isEmpty
  · have hsync : sync_with_todoist token now fetch st = ⟨st, 0, 0, 0, 0⟩ := by
      unfold sync_with_todoist; rw [if_pos he]
    rw [hsync]; exact frameRel_refl st
  · cases fetch with
    | failure =>
      have hsync : sync_with_todoist token now FetchResult.failure st = ⟨st, 0, 0, 0, 0⟩ := by
        unfold sync_with_todoist; rw [if_neg he]
      rw [hsync]; exact frameRel_refl st
    | success ts =>
      have hsync : sync_with_todoist token now (FetchResult.success ts) st =
          syncSuccess now ts st := by
        unfold sync_with_todoist; rw [if_neg he]
      rw [hsync, syncSuccess_eq]
      exact frameRel_sweep (frameRel_fold now ts (st, 0, 0) (frameRel_refl st))

/-! ### Preservation of the one-row-per-tag invariant by a full pass -/

theorem tagOf_desc_eq {t t' : Task} (e : t'.description = t.description) :
    tagOf t' = tagOf t := by
  unfold tagOf; rw [e]

theorem tagOf_canon {i rest : Str} {t : Task} (hdesc : t.description = tagNeedle i ++ rest)
    (hci : cleanId i = true) (hrest : '[' ∉ rest) : tagOf t = some i := by
  unfold tagOf
  rw [hdesc, if_pos (hasSub_tagMark_canon i rest), extractTid_canon hci hrest]

theorem tagOf_none {t : Task} (h : hasSub tagMark t.description = false) :
    tagOf t = none := by
  unfold tagOf
  rw [if_neg (by rw [h]; exact Bool.false_ne_true)]

/-- A well-tagged row carrying tag `i` matches the `LIKE` lookup pattern
for `i`: the pattern literal occurs verbatim at the head of the tag. -/
theorem wf_tag_matches {t : Task} {i : Str} (hwt : WFTask t) (htag : tagOf t = some i) :
    likeMatch (findPattern i) t.description = true := by
  rcases hwt with hno | ⟨i0, rest, hdesc, hci0, hrest⟩
  · rw [tagOf_none hno] at htag; exact Option.noConfusion htag
  · have : i0 = i := Option.some.inj ((tagOf_canon hdesc hci0 hrest).symm.trans htag)
    rw [hdesc, ← this]
    show likeMatch ('%' :: (tagNeedle i0 ++ ['%'])) (tagNeedle i0 ++ rest) = true
    exact (pct_iff _ _).mpr ⟨0, by rw [List.drop_zero]; exact like_self_append _ _⟩

theorem amo_step {now : Str} {acc : Store × Nat × Nat} {r : RemoteTask}
    (hwf : WFStore acc.1) (hr : cleanRemote r = true) (hA : AtMostOneTag acc.1) :
    AtMostOneTag (step1 now acc r).1 := by
  cases hft : findTag r.rid acc.1 with
  | none =>
    rw [step1_eq_imp hft]
    obtain ⟨rest, hfd, hrest⟩ := fullDescription_canon (cleanRemote_spec hr).2
    have htagnew : tagOf (importedTask now acc.1 r) = some r.rid :=
      tagOf_canon hfd (cleanRemote_spec hr).1 hrest
    have hnomatch : ∀ t1 ∈ acc.1.tasks, tagOf t1 = some r.rid → False := by
      intro t1 m1 htag
      have hmatch := wf_tag_matches (hwf t1 m1) htag
      have : (acc.1.tasks.find?
          (fun x => likeMatch (findPattern r.rid) x.description)).isSome = true :=
        List.find?_isSome.mpr ⟨t1, m1, hmatch⟩
      have hft' : acc.1.tasks.find?
          (fun x => likeMatch (findPattern r.rid) x.description) = none := hft
      rw [hft'] at this
      exact Bool.noConfusion this
    intro t1 h1 t2 h2 hne heq
    rcases List.mem_append.mp h1 with h1 | h1 <;> rcases List.mem_append.mp h2 with h2 | h2
    · exact hA t1 h1 t2 h2 hne heq
    · rw [List.mem_singleton.mp h2, htagnew] at heq
      exact (hnomatch t1 h1 heq).elim
    · rw [List.mem_singleton.mp h1, htagnew] at heq
      exact (hnomatch t2 h2 heq.symm).elim
    · rw [List.mem_singleton.mp h1, List.mem_singleton.mp h2]
  | some ex =>
    by_cases hst : ex.status ≠ statusOf r
    · rw [step1_eq_upd hft hst]
      intro t1 h1 t2 h2 hne heq
      rcases List.mem_map.mp h1 with ⟨t1', m1, rfl⟩
      rcases List.mem_map.mp h2 with ⟨t2', m2, rfl⟩
      have e1 := tagOf_desc_eq (updStatus_fields ex.id (statusOf r) t1').2.2.1
      have e2 := tagOf_desc_eq (updStatus_fields ex.id (statusOf r) t2').2.2.1
      rw [(updStatus_fields ex.id (statusOf r) t1').1, (updStatus_fields ex.id (statusOf r) t2').1]
      exact hA t1' m1 t2' m2 (by rw [← e1]; exact hne) (by rw [← e1, ← e2]; exact heq)
    · rw [step1_eq_skip hft hst]
      exact hA

theorem amo_fold (now : Str) : ∀ (ts : List RemoteTask) (acc : Store × Nat × Nat),
    WFStore acc.1 → UIds acc.1 → (∀ r ∈ ts, cleanRemote r = true) →
    AtMostOneTag acc.1 → AtMostOneTag (List.foldl (step1 now) acc ts).1 := by
  intro ts
  induction ts with
  | nil => intro acc _ _ _ hA; exact hA
  | cons r rest ih =>
    intro acc hwf hu hcl hA
    rw [List.foldl_cons]
    have hrcl := hcl r (List.mem_cons_self _ _)
    have hstep := @step1_inv now acc r hwf hu hrcl
    exact ih _ hstep.1 hstep.2 (fun x hx => hcl x (List.mem_cons_of_mem _ hx))
      (amo_step hwf hrcl hA)

theorem amo_sweep {st : Store} {ids : List Str} (hA : AtMostOneTag st) :
    AtMostOneTag (sweepStore ids st) :=
  fun t1 h1 t2 h2 => hA t1 (List.mem_of_mem_filter h1) t2 (List.mem_of_mem_filter h2)

/-! ### The interval scheduler's net-new selection -/

theorem check_nonempty_unfold {token : Str} (now : Str) (ok : Bool) (ts : List RemoteTask)
    (known : List Str) (st : Store) (htok : token ≠ []) :
    check_for_new_tasks token now ok (FetchResult.success ts) known st =
      ⟨(ts.foldl selStep (known, [])).1, (ts.foldl selStep (known, [])).2,
        if (ts.foldl selStep (known, [])).2.isEmpty then st
        else import_new_tasks now ok (ts.foldl selStep (known, [])).2 st⟩ := by
  cases token with
  | nil => exact absurd rfl htok
  | cons c cs => rfl

theorem selStep_sub (acc : List Str × List RemoteTask) (t : RemoteTask) :
    ∀ x ∈ acc.1, x ∈ (selStep acc t).1 := by
  intro x h
  unfold selStep
  by_cases hc : acc.1.contains t.rid = true
  · rw [if_pos hc]; exact h
  · rw [if_neg hc]
    show x ∈ acc.1 ++ [t.rid]
    exact List.mem_append.mpr (Or.inl h)

theorem selFold_mono : ∀ (ts : List RemoteTask) (acc : List Str × List RemoteTask) (x : Str),
    x ∈ acc.1 → x ∈ (List.foldl selStep acc ts).1 := by
  intro ts
  induction ts with
  | nil => intro acc x h; exact h
  | cons t rest ih =>
    intro acc x h
    rw [List.foldl_cons]
    exact ih _ x (selStep_sub acc t x h)

theorem selFold_cover : ∀ (ts : List RemoteTask) (acc : List Str × List RemoteTask)
    (r : RemoteTask), r ∈ ts → r.rid ∈ (List.foldl selStep acc ts).1 := by
  intro ts
  induction ts with
  | nil => intro acc r hr; exact absurd hr (List.not_mem_nil r)
  | cons t rest ih =>
    intro acc r hr
    rw [List.foldl_cons]
    rcases List.mem_cons.mp hr with e | hr
    · subst e
      apply selFold_mono rest
      unfold selStep
      by_cases hc : acc.1.contains r.rid = true
      · rw [if_pos hc]
        exact mem_of_contains hc
      · rw [if_neg hc]
        show r.rid ∈ acc.1 ++ [r.rid]
        exact List.mem_append.mpr (Or.inr (List.mem_singleton.mpr rfl))
    · exact ih _ r hr

theorem selFold_new : ∀ (ts : List RemoteTask) (acc : List Str × List RemoteTask)
    (x : RemoteTask), x ∈ (List.foldl selStep acc ts).2 → x ∈ acc.2 ∨ x.rid ∉ acc.1 := by
  intro ts
  induction ts with
  | nil => intro acc x hx; exact Or.inl hx
  | cons t rest ih =>
    intro acc x hx
    rw [List.foldl_cons] at hx
    rcases ih _ x hx with hx' | hx'
    · unfold selStep at hx'
      by_cases hc : acc.1.contains t.rid = true
      · rw [if_pos hc] at hx'
        exact Or.inl hx'
      · rw [if_neg hc] at hx'
        have hx'' : x ∈ acc.2 ++ [t] := hx'
        rcases List.mem_append.mp hx'' with h | h
        · exact Or.inl h
        · rw [List.mem_singleton.mp h]
          exact Or.inr (contains_false (Bool.not_eq_true _ ▸ hc : acc.1.contains t.rid = false))
    · exact Or.inr (fun m => hx' (selStep_sub acc t x.rid m))

theorem check_known_mono (token now : Str) (ok : Bool) (f : FetchResult)
    (known : List Str) (st : Store) :
    ∀ x ∈ known, x ∈ (check_for_new_tasks token now ok f known st).known := by
  intro x hx
  unfold check_for_new_tasks
  by_cases he : token.isEmpty = true
  · rw [if_pos he]; exact hx
  · rw [if_neg he]
    cases f with
    | failure => exact hx
    | success ts =>
      show x ∈ (ts.foldl selStep (known, [])).1
      exact selFold_mono ts (known, []) x hx

theorem check_new_not_known (token now : Str) (ok : Bool) (f : FetchResult)
    (known : List Str) (st : Store) :
    ∀ x ∈ (check_for_new_tasks token now ok f known st).newTasks, x.rid ∉ known := by
  intro x hx
  unfold check_for_new_tasks at hx
  by_cases he : token.isEmpty = true
  · rw [if_pos he] at hx
    exact absurd hx (List.not_mem_nil x)
  · rw [if_neg he] at hx
    cases f with
    | failure => exact absurd hx (List.not_mem_nil x)
    | success ts =>
      have hx' : x ∈ (ts.foldl selStep (known, [])).2 := hx
      rcases selFold_new ts (known, []) x hx' with h | h
      · exact absurd h (List.not_mem_nil x)
      · exact h

theorem runChecks_cons (token now : Str) (f : FetchResult) (ok : Bool)
    (rest : List (FetchResult × Bool)) (known : List Str) (st : Store) :
    runChecks token now ((f, ok) :: rest) known st =
      ((runChecks token now rest (check_for_new_tasks token now ok f known st).known
          (check_for_new_tasks token now ok f known st).store).1,
        (check_for_new_tasks token now ok f known st).newTasks ++
          (runChecks token now rest (check_for_new_tasks token now ok f known st).known
            (check_for_new_tasks token now ok f known st).store).2) := rfl

/-- Ids already in the known set are never selected again (hence never
re-imported and never re-notified) by any later sequence of firings. -/
theorem runChecks_avoid (token now : Str) :
    ∀ (rest : List (FetchResult × Bool)) (known : List Str) (st : Store) (S : List Str),
    (∀ x ∈ S, x ∈ known) →
    ∀ r2 ∈ (runChecks token now rest known st).2, r2.rid ∉ S := by
  intro rest
  induction rest with
  | nil => intro known st S _ r2 h2; exact absurd h2 (List.not_mem_nil r2)
  | cons fo rest ih =>
    intro known st S hS r2 h2
    rcases fo with ⟨f, ok⟩
    rw [runChecks_cons] at h2
    rcases List.mem_append.mp h2 with h2 | h2
    · intro m
      exact check_new_not_known token now ok f known st r2 h2 (hS r2.rid m)
    · exact ih _ _ S
        (fun x hx => check_known_mono token now ok f known st x (hS x hx)) r2 h2

/-! ### Concrete fixtures used by witnesses and counterexamples -/

def tokW : Str := "t".toList

def nowW : Str := "n".toList

def remW (b : Bool) : RemoteTask := ⟨"1".toList, "Buy milk".toList, [], b, "c".toList⟩

def emptyStore : Store := ⟨[], 1⟩

/-- A row as the reconciler imports it for remote id 1, still pending. -/
def taggedPendingRow : Task :=
  ⟨1, "Buy milk".toList, "[TODOIST-1]".toList, "c".toList, none, pendingS⟩

/-- A row whose external tag lacks the closing bracket. -/
def malformedRow : Task := ⟨1, "x".toList, "[TODOIST-1".toList, "c".toList, none, pendingS⟩

/-- A remote task with the lower-case id `a`. -/
def remLow (b : Bool) : RemoteTask := ⟨"a".toList, "Buy milk".toList, [], b, "c".toList⟩

/-- A remote task with the upper-case id `A`. -/
def remUp (b : Bool) : RemoteTask := ⟨"A".toList, "Buy milk".toList, [], b, "c".toList⟩

/-- The model keeps `LIKE`'s ASCII case-insensitivity: the lookup pattern
for id `a` matches the tag written for id `A`, and a snapshot listing the
two distinct (bracket-free) ids `a` and `A` is not idempotent — the two
aliased rows fight over one row's status and the second pass reports
2 updates.  This is why the rigid-id hypotheses of claims C1 and C2
exclude ASCII letters from external ids. -/
theorem like_case_alias :
    likeMatch (findPattern "a".toList) "[TODOIST-A] x".toList = true ∧
    CleanSnap [remLow false, remUp true] ∧
    (sync_with_todoist tokW nowW (FetchResult.success [remLow false, remUp true])
        (sync_with_todoist tokW nowW (FetchResult.success [remLow false, remUp true])
          emptyStore).store).updated = 2 := by
  decide

/-- The model keeps `LIKE`'s wildcards: an unescaped `%` inside the
interpolated id matches arbitrary text between `[TODOIST-` and `]`. -/
theorem like_wildcard :
    likeMatch (findPattern "%".toList) "[TODOIST-xyz]".toList = true := by
  decide

/-! ### Claims -/

/-- Claim C1, amended: for a remote snapshot with pairwise-distinct rigid
external ids (no ASCII letters, which the case-insensitive `LIKE` would
fold, no `%` or `_` wildcards, no brackets) and `[`-free remote
descriptions, and a local store whose rows are rigidly tagged with unique
row ids, a second reconciliation pass against the unchanged snapshot
imports 0, updates 0, deletes 0 and leaves the store unchanged.
(Unrestricted the claim fails: see the counterexample, a snapshot listing
one id twice with conflicting completed flags, whose second pass reports
2 updates.) -/
theorem c1_reconcile_idempotent (token now now' : Str) (ts : List RemoteTask) (st : Store)
    (htok : token ≠ []) (hcs : OkSnap ts) (hwf : OkStore st) (hu : UIds st) :
    sync_with_todoist token now' (FetchResult.success ts)
        (sync_with_todoist token now (FetchResult.success ts) st).store =
      ⟨(sync_with_todoist token now (FetchResult.success ts) st).store, 0, 0, 0, 0⟩ := by
  rw [sync_success_eq now ts st htok]
  rw [sync_success_eq now' _ _ htok]
  obtain ⟨h1, h2, _, _⟩ := @syncSuccess_establishes now ts st hcs hwf hu
  exact syncSuccess_of_good h1 h2

theorem c1_reconcile_idempotent_witness :
    OkSnap [remW false] ∧
    sync_with_todoist tokW "m".toList (FetchResult.success [remW false])
        (sync_with_todoist tokW nowW (FetchResult.success [remW false]) emptyStore).store =
      ⟨(sync_with_todoist tokW nowW (FetchResult.success [remW false]) emptyStore).store,
        0, 0, 0, 0⟩ :=
  ⟨by decide,
    c1_reconcile_idempotent tokW nowW "m".toList [remW false] emptyStore (by decide)
      (by decide) (fun t ht => absurd ht (List.not_mem_nil t))
      ⟨List.nodup_nil, fun t ht => absurd ht (List.not_mem_nil t)⟩⟩

/-- Claim C1 as stated is false: against the snapshot listing external id 1
twice (once pending, once completed), the second reconciliation pass over
the store left by the first pass reports 2 updates, not 0. -/
theorem c1_counterexample :
    (sync_with_todoist tokW nowW (FetchResult.success [remW false, remW true])
        (sync_with_todoist tokW nowW (FetchResult.success [remW false, remW true])
          emptyStore).store).updated = 2 := by decide

/-- Claim C2, amended: a previously imported, locally pending task that the
snapshot now reports completed gets its status set to completed and counts
as exactly one update, and a further reconcile makes 0 further updates —
but `completed_at` is NOT stamped: the UPDATE of server.py line 276 writes
only the status column, so `completed_at` keeps its previous value. -/
theorem c2_completed_sync (token now now' : Str) (st : Store) (r : RemoteTask) (t : Task)
    (htok : token ≠ []) (hwf : OkStore st) (hu : UIds st)
    (hr : okRemote r = true) (hcomp : r.is_completed = true)
    (hfind : findTag r.rid st = some t) (hpend : t.status = pendingS) :
    (sync_with_todoist token now (FetchResult.success [r]) st).updated = 1 ∧
    (sync_with_todoist token now (FetchResult.success [r]) st).imported = 0 ∧
    (∃ t' ∈ (sync_with_todoist token now (FetchResult.success [r]) st).store.tasks,
        t'.id = t.id ∧ t'.status = completedS ∧ t'.completed_at = t.completed_at ∧
        t'.title = t.title ∧ t'.description = t.description ∧
        t'.created_at = t.created_at) ∧
    (sync_with_todoist token now' (FetchResult.success [r])
        (sync_with_todoist token now (FetchResult.success [r]) st).store).updated = 0 := by
  have hstat : statusOf r = completedS := by unfold statusOf; rw [if_pos hcomp]
  have hne : t.status ≠ statusOf r := by
    rw [hpend, hstat]; decide
  have hfold : List.foldl (step1 now) (st, 0, 0) [r] =
      (setStatus t.id (statusOf r) st, 0, 0 + 1) := by
    rw [List.foldl_cons, step1_eq_upd hfind hne, List.foldl_nil]
  have hcs : OkSnap [r] := by
    constructor
    · show (ridsOf [r]).Nodup
      exact List.nodup_singleton _
    · intro x hx
      rw [List.mem_singleton.mp hx]
      exact hr
  obtain ⟨rest, hdesc, hrest⟩ := findTag_characterize hwf (okRemote_spec hr).1 hfind
  refine ⟨?_, ?_, ?_, ?_⟩
  · rw [sync_success_eq now [r] st htok, syncSuccess_eq, hfold]
  · rw [sync_success_eq now [r] st htok, syncSuccess_eq, hfold]
  · rw [sync_success_eq now [r] st htok, syncSuccess_eq, hfold]
    refine ⟨updStatus t.id (statusOf r) t, ?_, ?_⟩
    · show updStatus t.id (statusOf r) t ∈
        ((setStatus t.id (statusOf r) st).tasks.filter
          (fun x => !doomed (ridsOf [r]) x.description))
      apply List.mem_filter.mpr
      refine ⟨List.mem_map_of_mem _ (findTag_mem hfind), ?_⟩
      rw [(updStatus_fields t.id (statusOf r) t).2.2.1, hdesc,
        doomed_canon_false (okId_cleanId (okRemote_spec hr).1) hrest
          (show r.rid ∈ ridsOf [r] from
            List.mem_map_of_mem RemoteTask.rid (List.mem_singleton.mpr rfl))]
      rfl
    · rw [updStatus_of_eq rfl, hstat]
      exact ⟨rfl, rfl, rfl, rfl, rfl, rfl⟩
  · rw [sync_success_eq now [r] st htok]
    rw [sync_success_eq now' _ _ htok]
    obtain ⟨h1, h2, _, _⟩ := @syncSuccess_establishes now [r] st hcs hwf hu
    rw [syncSuccess_of_good h1 h2]

theorem c2_completed_sync_witness :
    findTag "1".toList ⟨[taggedPendingRow], 2⟩ = some taggedPendingRow ∧
    ((sync_with_todoist tokW nowW (FetchResult.success [remW true])
        ⟨[taggedPendingRow], 2⟩).updated = 1 ∧
      (sync_with_todoist tokW nowW (FetchResult.success [remW true])
        ⟨[taggedPendingRow], 2⟩).imported = 0 ∧
      (∃ t' ∈ (sync_with_todoist tokW nowW (FetchResult.success [remW true])
          ⟨[taggedPendingRow], 2⟩).store.tasks,
          t'.id = taggedPendingRow.id ∧ t'.status = completedS ∧
          t'.completed_at = taggedPendingRow.completed_at ∧
          t'.title = taggedPendingRow.title ∧
          t'.description = taggedPendingRow.description ∧
          t'.created_at = taggedPendingRow.created_at) ∧
      (sync_with_todoist tokW "m".toList (FetchResult.success [remW true])
          (sync_with_todoist tokW nowW (FetchResult.success [remW true])
            ⟨[taggedPendingRow], 2⟩).store).updated = 0) :=
  ⟨by decide,
    c2_completed_sync tokW nowW "m".toList ⟨[taggedPendingRow], 2⟩ (remW true)
      taggedPendingRow (by decide)
      (fun t ht => by
        rw [List.mem_singleton.mp ht]
        exact Or.inr ⟨"1".toList, [], by decide, by decide, by decide⟩)
      (by refine ⟨?_, ?_⟩ <;> decide) (by decide) (by decide) (by decide) (by decide)⟩

/-- Claim C2 as stated is false: after importing remote task 1 as pending,
a pass whose snapshot reports it completed flips the status and counts one
update, but leaves `completed_at` NULL — no timestamp is stamped. -/
theorem c2_counterexample :
    (sync_with_todoist tokW nowW (FetchResult.success [remW true])
        (sync_with_todoist tokW nowW (FetchResult.success [remW false])
          emptyStore).store).updated = 1 ∧
    (sync_with_todoist tokW nowW (FetchResult.success [remW true])
        (sync_with_todoist tokW nowW (FetchResult.success [remW false])
          emptyStore).store).store.tasks.map Task.completed_at = [none] ∧
    (sync_with_todoist tokW nowW (FetchResult.success [remW true])
        (sync_with_todoist tokW nowW (FetchResult.success [remW false])
          emptyStore).store).store.tasks.map Task.status = [completedS] := by decide

/-- Claim C3, amended: the function returns a single integer — the sum
`imported + updated + deleted` (server.py line 319) — not a record of three
counters; the individual counters are only printed. -/
theorem c3_single_return (token now : Str) (fetch : FetchResult) (st : Store) :
    (sync_with_todoist token now fetch st).ret =
      (sync_with_todoist token now fetch st).imported +
      (sync_with_todoist token now fetch st).updated +
      (sync_with_todoist token now fetch st).deleted := by
  by_cases he : token.isEmpty = true
  · unfold sync_with_todoist
    rw [if_pos he]
    rfl
  · cases fetch with
    | failure =>
      unfold sync_with_todoist
      rw [if_neg he]
      rfl
    | success ts =>
      have hs : sync_with_todoist token now (FetchResult.success ts) st =
          syncSuccess now ts st := by
        unfold sync_with_todoist; rw [if_neg he]
      rw [hs, syncSuccess_eq]

/-- Claim C3 as stated is false: two runs with different counter triples
(one import vs one deletion) return the same single number, so the return
value cannot tell the caller how many were imported, updated and deleted. -/
theorem c3_counterexample :
    (sync_with_todoist tokW nowW (FetchResult.success [remW false]) emptyStore).ret =
      (sync_with_todoist tokW nowW (FetchResult.success []) ⟨[taggedPendingRow], 2⟩).ret ∧
    (sync_with_todoist tokW nowW (FetchResult.success [remW false]) emptyStore).imported ≠
      (sync_with_todoist tokW nowW (FetchResult.success []) ⟨[taggedPendingRow], 2⟩).imported ∧
    (sync_with_todoist tokW nowW (FetchResult.success [remW false]) emptyStore).deleted ≠
      (sync_with_todoist tokW nowW (FetchResult.success []) ⟨[taggedPendingRow], 2⟩).deleted := by
  decide

/-- Claim C4, amended: a full reconciliation pass (against a clean
snapshot, on a well-tagged store with unique row ids) preserves the
at-most-one-row-per-external-id property — but the property is NOT an
invariant of the whole system: an interval-scheduler import firing whose
known-id set was seeded before a reconciliation pass re-imports the same
external id, leaving two rows with the same tag (see the counterexample). -/
theorem c4_sync_preserves_unique_tag (token now : Str) (ts : List RemoteTask) (st : Store)
    (hcs : CleanSnap ts) (hwf : WFStore st) (hu : UIds st) (hA : AtMostOneTag st) :
    AtMostOneTag (sync_with_todoist token now (FetchResult.success ts) st).store := by
  by_cases he : token.isEmpty = true
  · have hs : sync_with_todoist token now (FetchResult.success ts) st = ⟨st, 0, 0, 0, 0⟩ := by
      unfold sync_with_todoist; rw [if_pos he]
    rw [hs]; exact hA
  · have hs : sync_with_todoist token now (FetchResult.success ts) st =
        syncSuccess now ts st := by
      unfold sync_with_todoist; rw [if_neg he]
    rw [hs, syncSuccess_eq]
    exact amo_sweep (amo_fold now ts (st, 0, 0) hwf hu hcs.2 hA)

theorem c4_sync_preserves_unique_tag_witness :
    CleanSnap [remW false] ∧
    AtMostOneTag (sync_with_todoist tokW nowW (FetchResult.success [remW false])
      emptyStore).store :=
  ⟨by decide,
    c4_sync_preserves_unique_tag tokW nowW [remW false] emptyStore (by decide)
      (fun t ht => absurd ht (List.not_mem_nil t))
      ⟨List.nodup_nil, fun t ht => absurd ht (List.not_mem_nil t)⟩ (by decide)⟩

/-- Claim C4 as stated is false: start the interval scheduler on an empty
store (its known-id set is seeded empty, server.py line 449), run one full
reconciliation pass importing remote task 1, then let the scheduler fire on
the same snapshot — it re-imports id 1 (id 1 is not in its known set), and
the store ends with two rows carrying the tag `[TODOIST-1]`. -/
theorem c4_counterexample :
    ¬ AtMostOneTag (check_for_new_tasks tokW nowW true (FetchResult.success [remW false])
        (load_existing_tasks emptyStore)
        (sync_with_todoist tokW nowW (FetchResult.success [remW false])
          emptyStore).store).store := by
  decide

/-- Claim C5, amended: a local task whose description contains `[TODOIST-`
but no closing `]` is indeed never matched for status updates — neither as
an exact substring nor under the SQL `LIKE`'s case-insensitive matching,
since the lookup pattern requires the closing bracket — but it is NOT
exempt from the deletion sweep: lines 302-307 extract everything after
`[TODOIST-` as the id and delete the row whenever that string is not among
the snapshot's ids. -/
theorem c5_malformed_tag (token now : Str) (ts : List RemoteTask) (st : Store) (d : Str)
    (htok : token ≠ []) (hmal : hasSub tagMark d = true) (hnorb : ']' ∉ d)
    (hgone : extractTid d ∉ ridsOf ts) :
    (∀ rid : Str, ∀ t ∈ st.tasks, t.description = d →
        hasSub (tagNeedle rid) t.description = false ∧
        likeMatch (findPattern rid) t.description = false) ∧
    (∀ t' ∈ (sync_with_todoist token now (FetchResult.success ts) st).store.tasks,
        t'.description ≠ d) := by
  constructor
  · intro rid t _ hdesc
    rw [hdesc]
    have hmem : ']' ∈ tagNeedle rid := by
      show ']' ∈ tagMark ++ rid ++ rbrS
      exact List.mem_append.mpr (Or.inr (List.mem_singleton.mpr rfl))
    constructor
    · cases hcon : hasSub (tagNeedle rid) d with
      | false => rfl
      | true => exact absurd (hasSub_mem hcon ']' hmem) hnorb
    · cases hcon : likeMatch (findPattern rid) d with
      | false => rfl
      | true =>
        have hmem' : ']' ∈ findPattern rid :=
          List.mem_cons_of_mem _ (List.mem_append.mpr (Or.inl hmem))
        obtain ⟨c, hc, hlc⟩ := match_mem _ _ hcon ']' hmem' (by decide) (by decide)
        rw [likeC_rbrack hlc] at hc
        exact absurd hc hnorb
  · intro t' ht' hdesc
    rw [sync_success_eq now ts st htok, syncSuccess_eq] at ht'
    have hd : doomed (ridsOf ts) t'.description = false := sweepStore_not_doomed t' ht'
    rw [hdesc] at hd
    unfold doomed at hd
    rw [hmal, contains_eq_false_of_not_mem hgone] at hd
    exact Bool.noConfusion hd

theorem c5_malformed_tag_witness :
    hasSub tagMark "[TODOIST-1".toList = true ∧
    ((∀ rid : Str, ∀ t ∈ (⟨[malformedRow], 2⟩ : Store).tasks,
        t.description = "[TODOIST-1".toList →
        hasSub (tagNeedle rid) t.description = false ∧
        likeMatch (findPattern rid) t.description = false) ∧
      (∀ t' ∈ (sync_with_todoist tokW nowW (FetchResult.success [])
          (⟨[malformedRow], 2⟩ : Store)).store.tasks,
        t'.description ≠ "[TODOIST-1".toList)) :=
  ⟨by decide,
    c5_malformed_tag tokW nowW [] ⟨[malformedRow], 2⟩ "[TODOIST-1".toList
      (by decide) (by decide) (by decide) (by decide)⟩

/-- Claim C5 as stated is false: a pass against the empty snapshot deletes
the malformed-tag row (its extracted id "1" is not in the snapshot) and
reports 1 deletion, though the claim says such a row is never deleted. -/
theorem c5_counterexample :
    (sync_with_todoist tokW nowW (FetchResult.success [])
        (⟨[malformedRow], 2⟩ : Store)).deleted = 1 ∧
    (sync_with_todoist tokW nowW (FetchResult.success [])
        (⟨[malformedRow], 2⟩ : Store)).store.tasks = [] := by
  decide

/-- Claim C6: when the credential is missing or the fetch fails (transport
error, missing `requests` module, or non-200 status — all modelled by
`FetchResult.failure`), the pass returns zero for all counters and the
returned value, and the store is completely unchanged. -/
theorem c6_failed_fetch_no_change (token now : Str) (fetch : FetchResult) (st : Store)
    (h : token = [] ∨ fetch = FetchResult.failure) :
    sync_with_todoist token now fetch st = ⟨st, 0, 0, 0, 0⟩ := by
  rcases h with h | h
  · subst h; rfl
  · subst h
    by_cases he : token.isEmpty = true
    · unfold sync_with_todoist; rw [if_pos he]
    · unfold sync_with_todoist; rw [if_neg he]

theorem c6_failed_fetch_no_change_witness :
    (tokW = [] ∨ (FetchResult.failure : FetchResult) = FetchResult.failure) ∧
    sync_with_todoist tokW nowW FetchResult.failure ⟨[taggedPendingRow], 2⟩ =
      ⟨⟨[taggedPendingRow], 2⟩, 0, 0, 0, 0⟩ :=
  ⟨Or.inr rfl,
    c6_failed_fetch_no_change tokW nowW FetchResult.failure ⟨[taggedPendingRow], 2⟩
      (Or.inr rfl)⟩

/-- Claim C7, amended: the `complete_task` tool rejects only a missing or
falsy (0) task_id; for any other id it runs the UPDATE and returns a
success confirmation whether or not a task with that id exists — when none
exists the store is unchanged and success is still reported. -/
theorem c7_complete_task_no_validation (now : Str) (st : Store) (n : Nat)
    (hn : n ≠ 0) (habs : ∀ t ∈ st.tasks, t.id ≠ n) :
    handle_complete_call now none st = (st, true) ∧
    handle_complete_call now (some 0) st = (st, true) ∧
    handle_complete_call now (some n) st = (st, false) := by
  refine ⟨rfl, rfl, ?_⟩
  show (if n = 0 then (st, true) else (complete_task now n st, false)) = (st, false)
  rw [if_neg hn]
  have hmap : complete_task now n st = st := by
    unfold complete_task
    rw [map_eq_self_of (fun t ht => if_neg (habs t ht))]
  rw [hmap]

theorem c7_complete_task_no_validation_witness :
    (5 ≠ 0) ∧
    (handle_complete_call nowW none emptyStore = (emptyStore, true) ∧
      handle_complete_call nowW (some 0) emptyStore = (emptyStore, true) ∧
      handle_complete_call nowW (some 5) emptyStore = (emptyStore, false)) :=
  ⟨by decide,
    c7_complete_task_no_validation nowW emptyStore 5 (by decide)
      (fun t ht => absurd ht (List.not_mem_nil t))⟩

/-- Claim C7 as stated is false: completing task 5 on an empty store
returns a success reply (`isError` absent), though no task 5 exists — the
UPDATE silently affects zero rows and the handler reports success anyway. -/
theorem c7_counterexample :
    handle_complete_call nowW (some 5) emptyStore = (emptyStore, false) := by decide

/-- Claim C9: when a reconciliation pass touches an existing row (only the
status-disagreement UPDATE ever writes to existing rows), every column
except status — title, description, created_at, completed_at — is
unchanged; in particular a task re-opened by the remote keeps its old
`completed_at`. -/
theorem c9_update_writes_only_status (token now : Str) (fetch : FetchResult) (st : Store)
    (hu : UIds st) :
    ∀ t ∈ st.tasks, ∀ t' ∈ (sync_with_todoist token now fetch st).store.tasks,
      t'.id = t.id →
      t'.title = t.title ∧ t'.description = t.description ∧
      t'.created_at = t.created_at ∧ t'.completed_at = t.completed_at := by
  intro t ht t' ht' hid
  have hF := frameRel_sync token now fetch st
  rcases hF.1 t' ht' with ⟨t0, ht0, hf⟩ | hge
  · have he : t0 = t := nodup_key_inj hu.1 t0 ht0 t ht (by rw [← hf.1, hid])
    rw [he] at hf
    exact ⟨hf.2.1, hf.2.2.1, hf.2.2.2.1, hf.2.2.2.2⟩
  · rw [hid] at hge
    exact absurd hge (not_le.mpr (hu.2 t ht))

theorem c9_update_writes_only_status_witness :
    UIds ⟨[taggedPendingRow], 2⟩ ∧
    (∀ t ∈ (⟨[taggedPendingRow], 2⟩ : Store).tasks,
      ∀ t' ∈ (sync_with_todoist tokW nowW (FetchResult.success [remW true])
          (⟨[taggedPendingRow], 2⟩ : Store)).store.tasks,
        t'.id = t.id →
        t'.title = t.title ∧ t'.description = t.description ∧
        t'.created_at = t.created_at ∧ t'.completed_at = t.completed_at) :=
  ⟨by refine ⟨?_, ?_⟩ <;> decide,
    c9_update_writes_only_status tokW nowW (FetchResult.success [remW true])
      ⟨[taggedPendingRow], 2⟩ (by refine ⟨?_, ?_⟩ <;> decide)⟩

/-- Claim C10: in a net-new detection firing every fetched id absent from
the known set is added to the set (this happens before the import call);
with the import transaction failing (`ok = false`) the store is unchanged
but the ids stay known, so no later sequence of firings ever selects —
hence re-imports or re-notifies — any id of that snapshot again. -/
theorem c10_known_marked_before_import (token now : Str) (ts : List RemoteTask)
    (ok : Bool) (known : List Str) (st : Store) (rest : List (FetchResult × Bool))
    (htok : token ≠ []) :
    (∀ r ∈ ts, r.rid ∈
        (check_for_new_tasks token now ok (FetchResult.success ts) known st).known) ∧
    (check_for_new_tasks token now false (FetchResult.success ts) known st).store = st ∧
    (∀ r2 ∈ (runChecks token now rest
        (check_for_new_tasks token now ok (FetchResult.success ts) known st).known
        (check_for_new_tasks token now ok (FetchResult.success ts) known st).store).2,
      ∀ r ∈ ts, r2.rid ≠ r.rid) := by
  refine ⟨?_, ?_, ?_⟩
  · intro r hr
    rw [check_nonempty_unfold now ok ts known st htok]
    exact selFold_cover ts (known, []) r hr
  · rw [check_nonempty_unfold now false ts known st htok]
    show (if (ts.foldl selStep (known, [])).2.isEmpty then st
        else import_new_tasks now false (ts.foldl selStep (known, [])).2 st) = st
    by_cases hemp : (ts.foldl selStep (known, [])).2.isEmpty = true
    · rw [if_pos hemp]
    · rw [if_neg hemp]; rfl
  · intro r2 h2 r hr e
    have havoid := runChecks_avoid token now rest
      (check_for_new_tasks token now ok (FetchResult.success ts) known st).known
      (check_for_new_tasks token now ok (FetchResult.success ts) known st).store
      (ridsOf ts)
      (fun x hx => by
        rcases List.mem_map.mp hx with ⟨r', hr', e'⟩
        rw [check_nonempty_unfold now ok ts known st htok, ← e']
        exact selFold_cover ts (known, []) r' hr') r2 h2
    apply havoid
    rw [e]
    exact List.mem_map_of_mem RemoteTask.rid hr

theorem c10_known_marked_before_import_witness :
    (tokW ≠ []) ∧
    ((∀ r ∈ [remW false], r.rid ∈
        (check_for_new_tasks tokW nowW false (FetchResult.success [remW false])
          [] emptyStore).known) ∧
      (check_for_new_tasks tokW nowW false (FetchResult.success [remW false])
        [] emptyStore).store = emptyStore ∧
      (∀ r2 ∈ (runChecks tokW nowW [(FetchResult.success [remW false], true)]
          (check_for_new_tasks tokW nowW false (FetchResult.success [remW false])
            [] emptyStore).known
          (check_for_new_tasks tokW nowW false (FetchResult.success [remW false])
            [] emptyStore).store).2,
        ∀ r ∈ [remW false], r2.rid ≠ r.rid)) :=
  ⟨by decide,
    c10_known_marked_before_import tokW nowW [remW false] false [] emptyStore
      [(FetchResult.success [remW false], true)] (by decide)⟩

end Server
